import Mathlib

/-!
# Block cache of the IR jit (`Core/MIPS/IR/IRJit.cpp`)

A shallow embedding of the block cache, the self-modifying-code guard, the
compile path and the dispatcher loop of `IRJit.cpp`, followed by theorems about them.

Conventions of the embedding:

* `u32` values are natural numbers; every `u32` addition of the source is followed
  by `% 2 ^ 32`, and `x & 0x3FFFFFFF` is the bitwise and on `Nat`.
* `int` block numbers are natural numbers (the source only ever produces
  non-negative ones); `MIPS_EMUHACK_OPCODE | number` is truncated to 32 bits.
* Guest memory is passed explicitly: an operation takes the memory and returns the
  new memory next to its other results.
* `blocks_[i]` with `i` out of range is undefined behaviour in the source; the
  operations that index with a number they did not produce themselves return
  `Option`, with `none` standing for the out-of-range access.
* The loops of `Compile` and `RunLoopUntil` need not end; they take a fuel argument
  and return `none` when it runs out.
-/

namespace MIPSComp

/-! ## Parts declared outside `IRJit.cpp` -/

/-- Modelled from the spec: the IR instruction type is declared in a header that is not part of
the sources at hand; the spec treats an IR program as "an opaque ordered sequence", so an
instruction is an uninterpreted number here. -/
abbrev IRInst := Nat

/-- Modelled from the spec: the raw guest-memory primitives live in `Core/MemMap`, which is not
part of the sources at hand. The spec describes them as a word read and a word write on a flat
addressable array; guest memory is a map from a 32-bit address to the 32-bit word stored there.
Aliasing between mirrored regions and between overlapping unaligned words is not modelled.
Where a statement needs the start addresses of two blocks to name different words, it asks for
addresses that differ in their low 30 bits (`& 0x3FFFFFFF`, the mask the source applies for the
mirrored regions), which separates the words with and without the aliasing of mirrors. -/
abbrev Mem := Nat → Nat

/-- Modelled from the spec: `Memory::ReadUnchecked_U32` (declared in `Core/MemMap.h`),
"ReadWordUnchecked(addr) -> u32". -/
def Memory.ReadUnchecked_U32 (m : Mem) (addr : Nat) : Nat := m addr

/-- Modelled from the spec: `Memory::Read_Opcode_JIT` (declared in `Core/MemMap.h`); finalizing
"reads the current guest word at `startAddress`". -/
def Memory.Read_Opcode_JIT (m : Mem) (addr : Nat) : Nat := m addr

/-- Modelled from the spec: `Memory::Write_Opcode_JIT` (declared in `Core/MemMap.h`), the word
write used for guard patch and restore. -/
def Memory.Write_Opcode_JIT (m : Mem) (addr : Nat) (op : Nat) : Mem :=
  fun a => if a = addr then op else m a

/-- Modelled from the spec: the marker constant is declared in `Core/MIPS/MIPS.h`, which is not
part of the sources at hand. The spec fixes its shape, "a 32-bit value whose top byte equals a
reserved marker" with the low 24 bits left for the block number; the marker byte is `0x68`. -/
def MIPS_EMUHACK_OPCODE : Nat := 0x68000000

/-- Modelled from the spec: the fields of a block are declared in `IRJit.h`, which is not part
of the sources at hand; they are the spec's `instructions`, `startAddress`,
`originalByteLength` and `savedOriginalWord`, under the names `IRJit.cpp` uses. -/
structure IRBlock where
  instr_ : List IRInst
  origAddr_ : Nat
  origSize_ : Nat
  origFirstOpcode_ : Nat
deriving DecidableEq, Repr

/-- Modelled from the spec: `IRBlock::IsValid` (declared in `IRJit.h`), "`startAddress == 0` iff
the block is not live". -/
def IRBlock.IsValid (b : IRBlock) : Bool := b.origAddr_ != 0

/-- Modelled from the spec: `IRBlock::SetInstructions` (declared in `IRJit.h`), "populate the
block" with the instruction sequence. -/
def IRBlock.SetInstructions (b : IRBlock) (inst : List IRInst) : IRBlock :=
  { b with instr_ := inst }

/-- Modelled from the spec: `IRBlock::SetOriginalSize` (declared in `IRJit.h`), "populate the
block" with the number of guest bytes consumed. -/
def IRBlock.SetOriginalSize (b : IRBlock) (size : Nat) : IRBlock :=
  { b with origSize_ := size }

/-- Modelled from the spec: `IRBlock::GetRange` (declared in `IRJit.h`), the block's start
address and byte length. -/
def IRBlock.GetRange (b : IRBlock) : Nat × Nat := (b.origAddr_, b.origSize_)

/-- Modelled from the spec: `IRBlock::GetOriginalFirstOp` (declared in `IRJit.h`), the saved
original word. -/
def IRBlock.GetOriginalFirstOp (b : IRBlock) : Nat := b.origFirstOpcode_

/-- Modelled from the spec: the members of the block cache are declared in `IRJit.h`, which is
not part of the sources at hand; `blocks_` is the "dense sequence of Block, indexed by integer
block number" and `byPage_` the "mapping from page number to the list of block numbers", where
`none` is a page without an entry. -/
structure IRBlockCache where
  blocks_ : List IRBlock
  byPage_ : Nat → Option (List Nat)

/-- Modelled from the spec: `IRBlockCache::AllocateBlock` (declared in `IRJit.h`), "reserves a
new slot, sets `startAddress = address`, returns its stable index. Does not yet touch guest
memory or the page index"; the slot is appended. -/
def IRBlockCache.AllocateBlock (c : IRBlockCache) (emAddr : Nat) : Nat × IRBlockCache :=
  (c.blocks_.length,
   { c with blocks_ := c.blocks_ ++ [{ instr_ := [], origAddr_ := emAddr, origSize_ := 0,
                                       origFirstOpcode_ := 0 }] })

/-- Modelled from the spec: `IRBlockCache::GetBlock` (declared in `IRJit.h`), "look up the
block" by its number; `none` is the null pointer returned for a number that names no block. -/
def IRBlockCache.GetBlock (c : IRBlockCache) (i : Nat) : Option IRBlock := c.blocks_[i]?

/-! ## `IRBlock` -/

/-- The word `MIPS_EMUHACK_OPCODE | number`, as a `u32`. -/
def emuhack (number : Nat) : Nat := (MIPS_EMUHACK_OPCODE ||| number) % 2 ^ 32

/-- `IRBlock::HasOriginalFirstOp`. -/
def IRBlock.HasOriginalFirstOp (b : IRBlock) (m : Mem) : Bool :=
  Memory.ReadUnchecked_U32 m b.origAddr_ == b.origFirstOpcode_

/-- `IRBlock::RestoreOriginalFirstOp`: the returned flag and the new memory. -/
def IRBlock.RestoreOriginalFirstOp (b : IRBlock) (number : Nat) (m : Mem) : Bool × Mem :=
  if Memory.ReadUnchecked_U32 m b.origAddr_ = emuhack number then
    (true, Memory.Write_Opcode_JIT m b.origAddr_ b.origFirstOpcode_)
  else
    (false, m)

/-- `IRBlock::Finalize`: the block with its saved word, and the patched memory. -/
def IRBlock.Finalize (b : IRBlock) (number : Nat) (m : Mem) : IRBlock × Mem :=
  let b1 := { b with origFirstOpcode_ := Memory.Read_Opcode_JIT m b.origAddr_ }
  (b1, Memory.Write_Opcode_JIT m b1.origAddr_ (emuhack number))

/-- `IRBlock::Destroy`. -/
def IRBlock.Destroy (b : IRBlock) (number : Nat) (m : Mem) : IRBlock × Mem :=
  if b.origAddr_ ≠ 0 then
    let m1 :=
      if Memory.ReadUnchecked_U32 m b.origAddr_ = emuhack number then
        Memory.Write_Opcode_JIT m b.origAddr_ b.origFirstOpcode_
      else m
    ({ b with origAddr_ := 0 }, m1)
  else
    (b, m)

/-- `IRBlock::OverlapsRange`. -/
def IRBlock.OverlapsRange (b : IRBlock) (addr size : Nat) : Bool :=
  let addr1 := addr &&& 0x3FFFFFFF
  let origAddr := b.origAddr_ &&& 0x3FFFFFFF
  decide ((addr1 + size) % 2 ^ 32 > origAddr) &&
    decide (addr1 < (origAddr + b.origSize_) % 2 ^ 32)

/-! ## `IRBlockCache` -/

/-- `IRBlockCache::AddressToPage`. -/
def IRBlockCache.AddressToPage (addr : Nat) : Nat := (addr &&& 0x3FFFFFFF) >>> 10

/-- The pages visited by `for (u32 page = startPage; page <= endPage; ++page)`. -/
def pagesFromTo (startPage endPage : Nat) : List Nat :=
  List.range' startPage (endPage + 1 - startPage)

/-- The loop of `IRBlockCache::Clear`: `blocks_[i].Destroy(i)` for `i` from `number` on. -/
def destroyFrom : Nat → List IRBlock → Mem → List IRBlock × Mem
  | _, [], m => ([], m)
  | number, b :: bs, m =>
    let r := b.Destroy number m
    let rest := destroyFrom (number + 1) bs r.2
    (r.1 :: rest.1, rest.2)

/-- `IRBlockCache::Clear`. -/
def IRBlockCache.Clear (c : IRBlockCache) (m : Mem) : IRBlockCache × Mem :=
  let r := destroyFrom 0 c.blocks_ m
  ({ blocks_ := [], byPage_ := fun _ => none }, r.2)

/-- The inner loop of `IRBlockCache::InvalidateICache` over the block numbers of one page. -/
def invalidateBlocks (address length : Nat) :
    List Nat → List IRBlock → Mem → Option (List IRBlock × Mem)
  | [], bs, m => some (bs, m)
  | i :: rest, bs, m =>
    match bs[i]? with
    | none => none
    | some b =>
      if b.OverlapsRange address length then
        let r := b.Destroy i m
        invalidateBlocks address length rest (bs.set i r.1) r.2
      else
        invalidateBlocks address length rest bs m

/-- The outer loop of `IRBlockCache::InvalidateICache` over the pages. -/
def invalidatePages (address length : Nat) (byPage : Nat → Option (List Nat)) :
    List Nat → List IRBlock → Mem → Option (List IRBlock × Mem)
  | [], bs, m => some (bs, m)
  | page :: rest, bs, m =>
    match byPage page with
    | none => invalidatePages address length byPage rest bs m
    | some blocksInPage =>
      match invalidateBlocks address length blocksInPage bs m with
      | none => none
      | some r => invalidatePages address length byPage rest r.1 r.2

/-- `IRBlockCache::InvalidateICache`. -/
def IRBlockCache.InvalidateICache (c : IRBlockCache) (address length : Nat) (m : Mem) :
    Option (IRBlockCache × Mem) :=
  let startPage := IRBlockCache.AddressToPage address
  let endPage := IRBlockCache.AddressToPage ((address + length) % 2 ^ 32)
  match invalidatePages address length c.byPage_ (pagesFromTo startPage endPage) c.blocks_ m with
  | none => none
  | some r => some ({ c with blocks_ := r.1 }, r.2)

/-- The statement `byPage_[page].push_back(i)`. -/
def pushBack (byPage : Nat → Option (List Nat)) (page i : Nat) : Nat → Option (List Nat) :=
  fun p => if p = page then some ((byPage page).getD [] ++ [i]) else byPage p

/-- The loop of `IRBlockCache::FinalizeBlock` over the pages. -/
def pushPages (byPage : Nat → Option (List Nat)) (i : Nat) : List Nat → Nat → Option (List Nat)
  | [] => byPage
  | page :: rest => pushPages (pushBack byPage page i) i rest

/-- `IRBlockCache::FinalizeBlock`. -/
def IRBlockCache.FinalizeBlock (c : IRBlockCache) (i : Nat) (m : Mem) :
    Option (IRBlockCache × Mem) :=
  match c.blocks_[i]? with
  | none => none
  | some b =>
    let r := b.Finalize i m
    let range := r.1.GetRange
    let startPage := IRBlockCache.AddressToPage range.1
    let endPage := IRBlockCache.AddressToPage ((range.1 + range.2) % 2 ^ 32)
    some ({ blocks_ := c.blocks_.set i r.1,
            byPage_ := pushPages c.byPage_ i (pagesFromTo startPage endPage) }, r.2)

/-- The loop of `IRBlockCache::SaveAndClearEmuHackOps`, from block `number` on: the markers
and the new memory. -/
def saveFrom : Nat → List IRBlock → Mem → List Nat × Mem
  | _, [], m => ([], m)
  | number, b :: bs, m =>
    if b.IsValid then
      let r := b.RestoreOriginalFirstOp number m
      let rest := saveFrom (number + 1) bs r.2
      ((if r.1 then number else 0) :: rest.1, rest.2)
    else
      let rest := saveFrom (number + 1) bs m
      (0 :: rest.1, rest.2)

/-- `IRBlockCache::SaveAndClearEmuHackOps`. -/
def IRBlockCache.SaveAndClearEmuHackOps (c : IRBlockCache) (m : Mem) : List Nat × Mem :=
  saveFrom 0 c.blocks_ m

/-- The loop of `IRBlockCache::RestoreSavedEmuHackOps`, from block `number` on; it runs only
when the two sequences have the same length. -/
def restoreFrom : Nat → List IRBlock → List Nat → Mem → List IRBlock × Mem
  | number, b :: bs, sv :: saved, m =>
    if b.IsValid && sv != 0 && b.HasOriginalFirstOp m then
      let r := b.Finalize number m
      let rest := restoreFrom (number + 1) bs saved r.2
      (r.1 :: rest.1, rest.2)
    else
      let rest := restoreFrom (number + 1) bs saved m
      (b :: rest.1, rest.2)
  | _, bs, _, m => (bs, m)

/-- `IRBlockCache::RestoreSavedEmuHackOps`: whether `ERROR_LOG` was reached, the cache and the
memory. Vector sizes are taken to fit an `int`. -/
def IRBlockCache.RestoreSavedEmuHackOps (c : IRBlockCache) (saved : List Nat) (m : Mem) :
    Bool × IRBlockCache × Mem :=
  if c.blocks_.length ≠ saved.length then
    (true, c, m)
  else
    let r := restoreFrom 0 c.blocks_ saved m
    (false, { c with blocks_ := r.1 }, r.2)

/-! ## `IRJit` -/

/-- Modelled from the spec: the frontend is an external collaborator, "interfaces only":
`Translate(address) -> (instructions, bytesConsumed)` and
`ViolatedRoundingAssumption(address) -> bool`. Both may read and change the frontend's own
state `σ`; translation reads guest memory. -/
structure IRFrontend (σ : Type) where
  DoJit : σ → Mem → Nat → (List IRInst × Nat) × σ
  CheckRounding : σ → Nat → Bool × σ

/-- The members of `IRJit` that the compile path uses. -/
structure IRJit (σ : Type) where
  blocks_ : IRBlockCache
  frontend_ : σ

/-- `IRJit::ClearCache`. -/
def IRJit.ClearCache {σ : Type} (j : IRJit σ) (m : Mem) : IRJit σ × Mem :=
  let r := j.blocks_.Clear m
  ({ j with blocks_ := r.1 }, r.2)

/-- `IRJit::InvalidateCacheAt`; the `int length` arrives as a `u32`. -/
def IRJit.InvalidateCacheAt {σ : Type} (j : IRJit σ) (em_address length : Nat) (m : Mem) :
    Option (IRJit σ × Mem) :=
  match j.blocks_.InvalidateICache em_address length m with
  | none => none
  | some r => some ({ j with blocks_ := r.1 }, r.2)

/-- The body of `IRJit::Compile` up to and including the call of `CheckRounding`: the jit, the
memory and the answer of `CheckRounding`. `none` is a null or out-of-range block access. -/
def IRJit.compilePass {σ : Type} (fe : IRFrontend σ) (j : IRJit σ) (m : Mem) (em_address : Nat) :
    Option (IRJit σ × Mem × Bool) :=
  let a := j.blocks_.AllocateBlock em_address
  let block_num := a.1
  match a.2.GetBlock block_num with
  | none => none
  | some b =>
    let t := fe.DoJit j.frontend_ m em_address
    let b2 := (b.SetInstructions t.1.1).SetOriginalSize t.1.2
    let c2 : IRBlockCache := { a.2 with blocks_ := a.2.blocks_.set block_num b2 }
    match c2.FinalizeBlock block_num m with
    | none => none
    | some r =>
      let k := fe.CheckRounding t.2 em_address
      some ({ blocks_ := r.1, frontend_ := k.2 }, r.2, k.1)

/-- `IRJit::Compile`. The recursion of the source is bounded by `fuel`; `none` is returned when
the fuel runs out, or for a null or out-of-range block access. -/
def IRJit.Compile {σ : Type} (fe : IRFrontend σ) :
    Nat → IRJit σ → Mem → Nat → Option (IRJit σ × Mem)
  | 0, _, _, _ => none
  | fuel + 1, j, m, em_address =>
    match IRJit.compilePass fe j m em_address with
    | none => none
    | some r =>
      if r.2.2 then
        let cl := IRJit.ClearCache r.1 r.2.1
        IRJit.Compile fe fuel cl.1 cl.2 em_address
      else
        some (r.1, r.2.1)

/-- The cache part of one pass of `IRJit::Compile`: `AllocateBlock(em_address)`, the block is
given the instructions and the byte length, then `FinalizeBlock`. -/
def IRBlockCache.addBlock (c : IRBlockCache) (em_address : Nat) (instructions : List IRInst)
    (mipsBytes : Nat) (m : Mem) : Option (IRBlockCache × Mem) :=
  let a := c.AllocateBlock em_address
  match a.2.GetBlock a.1 with
  | none => none
  | some b =>
    let b2 := (b.SetInstructions instructions).SetOriginalSize mipsBytes
    let c2 : IRBlockCache := { a.2 with blocks_ := a.2.blocks_.set a.1 b2 }
    c2.FinalizeBlock a.1 m

/-- The page-index list of a page; a page without an entry has no block numbers. -/
def pageList (byPage : Nat → Option (List Nat)) (p : Nat) : List Nat := (byPage p).getD []

/-- The block numbers `InvalidateICache` visits, in order, for a list of pages. -/
def visitList (byPage : Nat → Option (List Nat)) (pages : List Nat) : List Nat :=
  pages.flatMap (pageList byPage)

/-- The cache states built from the empty cache by allocate, populate and `FinalizeBlock`
alone, over any initial guest memory. -/
inductive Built : IRBlockCache → Mem → Prop
  | empty (m : Mem) : Built ⟨[], fun _ => none⟩ m
  | add (c : IRBlockCache) (m : Mem) (em_address : Nat) (instructions : List IRInst)
      (mipsBytes : Nat) (c2 : IRBlockCache) (m2 : Mem) :
      Built c m → c.addBlock em_address instructions mipsBytes m = some (c2, m2) → Built c2 m2

/-! ## Notions used in the statements, and example states -/

/-- The jit and the guest memory after the first pass of `Compile` and the `ClearCache` that
follows a reported rounding violation. -/
def IRJit.afterReset {σ : Type} (fe : IRFrontend σ) (j : IRJit σ) (m : Mem) (em_address : Nat) :
    IRJit σ × Mem :=
  match IRJit.compilePass fe j m em_address with
  | none => (j, m)
  | some r => IRJit.ClearCache r.1 r.2.1

/-- A frontend whose state counts the rounding checks made so far: every translation yields
three instructions over eight guest bytes, and only the first check reports a violation. -/
def countingFrontend : IRFrontend Nat where
  DoJit := fun s _ _ => (([1, 2, 3], 8), s)
  CheckRounding := fun s _ => (s == 0, s + 1)

/-- A jit holding one block compiled earlier at `0x08800000`. -/
def oneBlockJit : IRJit Nat where
  blocks_ := { blocks_ := [⟨[7], 0x08800000, 4, 0x27BDFFF0⟩], byPage_ := fun _ => none }
  frontend_ := 0

/-- The cache and guest memory after block 0 (four guest bytes) is compiled at `0x08804000`
and block 1 (eight guest bytes) at `0x08804100`, over a memory of `0x27BDFFF0` words. -/
def twoBlocksFinalized : Option (IRBlockCache × Mem) :=
  ((IRBlockCache.mk [] (fun _ => none)).addBlock 0x08804000 [1] 4 (fun _ => 0x27BDFFF0)).bind
    (fun r => r.1.addBlock 0x08804100 [2] 8 r.2)

/-- What the visit loop may do to the block list: every block is as before, or it passed the
overlap test and has its start address reset. -/
def DestroyedFrom (a l : Nat) (bs bs2 : List IRBlock) : Prop :=
  bs2.length = bs.length ∧
    ∀ (i : Nat) (b : IRBlock), bs[i]? = some b →
      bs2[i]? = some b ∨
        (b.OverlapsRange a l = true ∧ bs2[i]? = some { b with origAddr_ := 0 })

/-- Every number in the page index names a block of the cache. -/
def ValidPageIndex (c : IRBlockCache) : Prop :=
  ∀ p L, c.byPage_ p = some L → ∀ k ∈ L, k < c.blocks_.length

/-- The first and the last page of a block, as `FinalizeBlock` computes them. -/
def IRBlock.firstPage (b : IRBlock) : Nat := IRBlockCache.AddressToPage b.origAddr_

/-- The last page of a block, as `FinalizeBlock` computes it. -/
def IRBlock.lastPage (b : IRBlock) : Nat :=
  IRBlockCache.AddressToPage ((b.origAddr_ + b.origSize_) % 2 ^ 32)

/-- What holds of a cache built by `FinalizeBlock` calls: page lists hold block numbers in
ascending order, a block is listed exactly on the pages from its first to its last, and the
block whose sentinel is in guest memory is the latest one compiled at that address. -/
structure BuiltInv (c : IRBlockCache) (m : Mem) : Prop where
  bound : ∀ p, ∀ j ∈ pageList c.byPage_ p, j < c.blocks_.length
  sorted : ∀ p, (pageList c.byPage_ p).Pairwise (fun x y => x < y)
  member : ∀ (j : Nat) (b : IRBlock) (p : Nat), c.blocks_[j]? = some b →
    (j ∈ pageList c.byPage_ p ↔ b.firstPage ≤ p ∧ p ≤ b.lastPage)
  top : c.blocks_.length ≤ 2 ^ 24 → ∀ (i k : Nat) (bi bk : IRBlock),
    c.blocks_[i]? = some bi → c.blocks_[k]? = some bk → bi.origAddr_ = bk.origAddr_ →
    m bi.origAddr_ = emuhack i → k ≤ i

/-- The order `InvalidateICache` needs between two numbers `k` and `i` of a visit list: `k` is
met before `i` is, or `k` is not met any more once `i` has been met. -/
def noLaterVisit (k i : Nat) : List Nat → Prop
  | [] => True
  | x :: xs => x = k ∨ (x = i ∧ k ∉ xs) ∨ (x ≠ i ∧ noLaterVisit k i xs)

/-- The cache after block 0 (eight guest bytes) is compiled at `0x08804000` in the empty
cache. -/
def builtCache : IRBlockCache where
  blocks_ := [] ++ [⟨[1], 0x08804000, 8, 0x27BDFFF0⟩]
  byPage_ := pushPages (fun _ => none) 0
    (pagesFromTo (IRBlockCache.AddressToPage 0x08804000)
      (IRBlockCache.AddressToPage ((0x08804000 + 8) % 2 ^ 32)))

/-- The guest memory that goes with `builtCache`: words `0x27BDFFF0`, and the sentinel of
block 0 at `0x08804000`. -/
def builtMem : Mem := Memory.Write_Opcode_JIT (fun _ => 0x27BDFFF0) 0x08804000 (emuhack 0)

/-- `IRJit::GetOriginalOp`. -/
def IRJit.GetOriginalOp {σ : Type} (j : IRJit σ) (op : Nat) : Nat :=
  match j.blocks_.GetBlock (op &&& 0xFFFFFF) with
  | some b => b.GetOriginalFirstOp
  | none => op

/-- The memory effect shared by the loops of `Clear`, `SaveAndClearEmuHackOps` and
`RestoreSavedEmuHackOps`: entry `n`, `n + 1`, ... of a list is visited in order, and a visit
writes `val` at the entry's address when `cond` holds of the word found there. -/
def memLoop {α : Type} (addr : α → Nat) (cond : Nat → α → Nat → Bool) (val : Nat → α → Nat) :
    Nat → List α → Mem → Mem
  | _, [], m => m
  | n, a :: as, m =>
    memLoop addr cond val (n + 1) as
      (if cond n a (m (addr a)) then Memory.Write_Opcode_JIT m (addr a) (val n a) else m)

/-- When `Destroy(i)` and `RestoreOriginalFirstOp(i)` after `IsValid()` write: the block is
live and the word `w` at its start address is its sentinel. -/
def liftCond (i : Nat) (b : IRBlock) (w : Nat) : Bool :=
  decide (b.origAddr_ ≠ 0) && decide (w = emuhack i)

/-- The states reachable from the empty cache, over any initial guest memory, by the cache
operations: allocate, populate and `FinalizeBlock`; `InvalidateICache`; `Clear`;
`SaveAndClearEmuHackOps`; `RestoreSavedEmuHackOps` on any sequence. Guest memory changes only
through these operations. -/
inductive CacheReach : IRBlockCache → Mem → Prop
  | empty (m : Mem) : CacheReach ⟨[], fun _ => none⟩ m
  | add (c : IRBlockCache) (m : Mem) (em_address : Nat) (instructions : List IRInst)
      (mipsBytes : Nat) (c2 : IRBlockCache) (m2 : Mem) :
      CacheReach c m → c.addBlock em_address instructions mipsBytes m = some (c2, m2) →
      CacheReach c2 m2
  | invalidate (c : IRBlockCache) (m : Mem) (address length : Nat) (c2 : IRBlockCache)
      (m2 : Mem) :
      CacheReach c m → c.InvalidateICache address length m = some (c2, m2) → CacheReach c2 m2
  | clear (c : IRBlockCache) (m : Mem) : CacheReach c m → CacheReach (c.Clear m).1 (c.Clear m).2
  | save (c : IRBlockCache) (m : Mem) :
      CacheReach c m → CacheReach c (c.SaveAndClearEmuHackOps m).2
  | restore (c : IRBlockCache) (m : Mem) (saved : List Nat) :
      CacheReach c m →
      CacheReach (c.RestoreSavedEmuHackOps saved m).2.1 (c.RestoreSavedEmuHackOps saved m).2.2

/-- What the page index of a reachable cache satisfies: it holds only numbers of existing
blocks, and a live block is listed on every page from its first to its last. -/
structure IndexInv (c : IRBlockCache) : Prop where
  bound : ∀ p, ∀ j ∈ pageList c.byPage_ p, j < c.blocks_.length
  covered : ∀ (i : Nat) (b : IRBlock) (p : Nat), c.blocks_[i]? = some b → b.origAddr_ ≠ 0 →
    b.firstPage ≤ p → p ≤ b.lastPage → i ∈ pageList c.byPage_ p

/-- The states the dispatcher's use of the jit reaches in `k` steps, from the empty cache and a
guest memory without a marker word: `Compile` at a non-zero address whose guest word does not
have the marker in its top byte, `InvalidateCacheAt`, or `ClearCache`. -/
inductive DispatchReach {σ : Type} (fe : IRFrontend σ) : Nat → IRJit σ → Mem → Prop
  | init (f0 : σ) (m : Mem) (hm : ∀ x, m x &&& 0xFF000000 ≠ MIPS_EMUHACK_OPCODE) :
      DispatchReach fe 0 ⟨⟨[], fun _ => none⟩, f0⟩ m
  | compile (k : Nat) (j : IRJit σ) (m : Mem) (em_address fuel : Nat) (j2 : IRJit σ) (m2 : Mem) :
      DispatchReach fe k j m → em_address ≠ 0 →
      Memory.ReadUnchecked_U32 m em_address &&& 0xFF000000 ≠ MIPS_EMUHACK_OPCODE →
      IRJit.Compile fe fuel j m em_address = some (j2, m2) → DispatchReach fe (k + 1) j2 m2
  | invalidate (k : Nat) (j : IRJit σ) (m : Mem) (em_address length : Nat) (j2 : IRJit σ)
      (m2 : Mem) :
      DispatchReach fe k j m → j.InvalidateCacheAt em_address length m = some (j2, m2) →
      DispatchReach fe (k + 1) j2 m2
  | clear (k : Nat) (j : IRJit σ) (m : Mem) :
      DispatchReach fe k j m → DispatchReach fe (k + 1) (j.ClearCache m).1 (j.ClearCache m).2

/-- What holds of the blocks and the guest memory in the states of `DispatchReach`: a live
block has its sentinel at its start address and saved a word without the marker, and a guest
word with the marker is the sentinel of a live block that starts there. -/
structure SentInv (bs : List IRBlock) (m : Mem) : Prop where
  holds : ∀ (i : Nat) (b : IRBlock), bs[i]? = some b → b.origAddr_ ≠ 0 →
    m b.origAddr_ = emuhack i
  clean : ∀ (i : Nat) (b : IRBlock), bs[i]? = some b → b.origAddr_ ≠ 0 →
    b.origFirstOpcode_ &&& 0xFF000000 ≠ MIPS_EMUHACK_OPCODE
  named : ∀ x, m x &&& 0xFF000000 = MIPS_EMUHACK_OPCODE →
    ∃ (i : Nat) (b : IRBlock), bs[i]? = some b ∧ b.origAddr_ = x ∧ x ≠ 0 ∧ m x = emuhack i

/-- A frontend without state that never reports a rounding violation: every translation
yields one instruction over eight guest bytes. -/
def plainFrontend : IRFrontend Unit where
  DoJit := fun s _ _ => (([1], 8), s)
  CheckRounding := fun s _ => (false, s)

/-- Modelled from the spec: `IRBlock::GetInstructions` (declared in `IRJit.h`), the block's
"ordered sequence of opaque IR instructions"; it stands for the pointer and count pair the
dispatcher passes on. -/
def IRBlock.GetInstructions (b : IRBlock) : List IRInst := b.instr_

/-- What the dispatcher does to its collaborators and to guest memory, in order: a call of
`CoreTiming::Advance`, a read of the guest word at an address, a call of `Compile` with an
address, a call of `IRInterpret` for a block number. -/
inductive DispatchEvent
  | advance
  | readWord (addr : Nat)
  | compile (addr : Nat)
  | interpret (number : Nat)
deriving DecidableEq, Repr

/-- Modelled from the spec: the external collaborators of the dispatcher, "interfaces only".
`Advance` is the scheduler's tick-advance, which "updates the cycle budget and may change the
run state"; `IRInterpret` is the interpreter, `Run(instructions) -> nextProgramCounter`, which
reduces the cycle budget and may write guest memory. `ω` is the state of the world outside the
jit (scheduler, registers); the run state is a number, 0 for "running". -/
structure Collaborators (σ ω : Type) where
  frontend : IRFrontend σ
  Advance : ω → Int → Nat → ω × Int × Nat
  IRInterpret : ω → Mem → Int → List IRInst → Nat × ω × Mem × Int

/-- The state the dispatcher works on: the jit, guest memory, `mips_->pc`,
`mips_->downcount`, the global `coreState`, the world outside, and the events so far. -/
structure DispatchState (σ ω : Type) where
  jit : IRJit σ
  mem : Mem
  pc : Nat
  downcount : Int
  coreState : Nat
  world : ω
  events : List DispatchEvent

/-- The body of the inner loop of `IRJit::RunLoopUntil`: fetch the word at `pc`, then interpret
the block it names or compile. `none` is a null block pointer or a failed `Compile`. -/
def IRJit.dispatchOnce {σ ω : Type} (env : Collaborators σ ω) (fuel : Nat)
    (s : DispatchState σ ω) : Option (DispatchState σ ω) :=
  let inst := Memory.ReadUnchecked_U32 s.mem s.pc
  let opcode := inst &&& 0xFF000000
  if opcode = MIPS_EMUHACK_OPCODE then
    let data := inst &&& 0xFFFFFF
    match s.jit.blocks_.GetBlock data with
    | none => none
    | some block =>
      let r := env.IRInterpret s.world s.mem s.downcount block.GetInstructions
      some { s with pc := r.1, world := r.2.1, mem := r.2.2.1, downcount := r.2.2.2,
                    events := s.events ++ [.readWord s.pc, .interpret data] }
  else
    match IRJit.Compile env.frontend fuel s.jit s.mem s.pc with
    | none => none
    | some r =>
      some { s with jit := r.1, mem := r.2,
                    events := s.events ++ [.readWord s.pc, .compile s.pc] }

/-- The inner loop of `IRJit::RunLoopUntil`, `while (mips_->downcount >= 0)`, bounded by
`fuel`. -/
def IRJit.runInner {σ ω : Type} (env : Collaborators σ ω) :
    Nat → DispatchState σ ω → Option (DispatchState σ ω)
  | 0, s => if 0 ≤ s.downcount then none else some s
  | fuel + 1, s =>
    if 0 ≤ s.downcount then
      match IRJit.dispatchOnce env fuel s with
      | none => none
      | some s2 => IRJit.runInner env fuel s2
    else some s

/-- Collaborators for an example run: the scheduler keeps the cycle budget and the run state
as they are, the interpreter stays at address 0 and makes the cycle budget negative. -/
def idleCollaborators : Collaborators Unit Unit where
  frontend := plainFrontend
  Advance := fun w d c => (w, d, c)
  IRInterpret := fun w m _ _ => (0, w, m, -1)

/-- A dispatcher state whose cache already holds `2^24` destroyed blocks, at a program counter
`0x08804000` whose guest word `0x27BDFFF0` is no sentinel, with cycle budget 0. -/
def fullCacheState : DispatchState Unit Unit where
  jit := ⟨⟨List.replicate (2 ^ 24) ⟨[], 0, 0, 0⟩, fun _ => none⟩, ()⟩
  mem := fun _ => 0x27BDFFF0
  pc := 0x08804000
  downcount := 0
  coreState := 0
  world := ()
  events := []

/-! ## Basic facts -/

theorem emuhack_eq_of_lt {n : Nat} (hn : n < 2 ^ 24) : emuhack n = MIPS_EMUHACK_OPCODE ||| n := by
  unfold emuhack
  apply Nat.mod_eq_of_lt
  apply Nat.or_lt_two_pow
  · unfold MIPS_EMUHACK_OPCODE; norm_num
  · omega

theorem and_mask_eq_mod (x : Nat) : x &&& 0x3FFFFFFF = x % 2 ^ 30 := by
  have h := Nat.and_pow_two_sub_one_eq_mod x 30
  norm_num at h
  simpa using h

theorem write_same (m : Mem) (a v : Nat) : Memory.Write_Opcode_JIT m a v a = v := by
  simp [Memory.Write_Opcode_JIT]

theorem write_other (m : Mem) (a v x : Nat) (h : x ≠ a) :
    Memory.Write_Opcode_JIT m a v x = m x := by
  simp [Memory.Write_Opcode_JIT, h]

/-! ## Sentinel round trip (C1) -/

/-- C1, as stated, fails for a block whose start address is 0: `Destroy` takes address 0 for
"already destroyed" and leaves the sentinel in guest memory. Here the word at address 0 was 0
before `Finalize(0)` and is `MIPS_EMUHACK_OPCODE | 0` after the following `Destroy(0)`. -/
theorem finalize_destroy_at_zero_keeps_sentinel :
    Memory.ReadUnchecked_U32
        ((IRBlock.Finalize ⟨[], 0, 4, 0⟩ 0 (fun _ => 0)).1.Destroy 0
          (IRBlock.Finalize ⟨[], 0, 4, 0⟩ 0 (fun _ => 0)).2).2 0 = 0x68000000 ∧
      Memory.ReadUnchecked_U32 (fun _ => 0) 0 = 0 := by
  constructor
  · simp [IRBlock.Finalize, IRBlock.Destroy, Memory.ReadUnchecked_U32, Memory.Read_Opcode_JIT,
      Memory.Write_Opcode_JIT, emuhack, MIPS_EMUHACK_OPCODE]
  · rfl

/-- C1 (amended): for every guest memory, every non-zero block start address and every block
number `n < 2^24`, after `Finalize(n)` the guest word at the start address is
`MIPS_EMUHACK_OPCODE | n`, and after a following `Destroy(n)` it is the word that was there
immediately before `Finalize`. -/
theorem finalize_destroy_round_trip (m : Mem) (b : IRBlock) (n : Nat) (hn : n < 2 ^ 24)
    (ha : b.origAddr_ ≠ 0) :
    Memory.ReadUnchecked_U32 (b.Finalize n m).2 b.origAddr_ = MIPS_EMUHACK_OPCODE ||| n ∧
      Memory.ReadUnchecked_U32 ((b.Finalize n m).1.Destroy n (b.Finalize n m).2).2 b.origAddr_
        = Memory.ReadUnchecked_U32 m b.origAddr_ := by
  constructor
  · simp [IRBlock.Finalize, Memory.ReadUnchecked_U32, Memory.Write_Opcode_JIT,
      emuhack_eq_of_lt hn]
  · simp [IRBlock.Finalize, IRBlock.Destroy, Memory.ReadUnchecked_U32, Memory.Read_Opcode_JIT,
      Memory.Write_Opcode_JIT, ha]

/-- Witness of C1 at a block at `0x08804000`, number 3, over a memory of `0x27BDFFF0` words. -/
theorem finalize_destroy_round_trip_witness :
    Memory.ReadUnchecked_U32
        (IRBlock.Finalize ⟨[], 0x08804000, 4, 0⟩ 3 (fun _ => 0x27BDFFF0)).2 0x08804000
        = MIPS_EMUHACK_OPCODE ||| 3 ∧
      Memory.ReadUnchecked_U32
        ((IRBlock.Finalize ⟨[], 0x08804000, 4, 0⟩ 3 (fun _ => 0x27BDFFF0)).1.Destroy 3
          (IRBlock.Finalize ⟨[], 0x08804000, 4, 0⟩ 3 (fun _ => 0x27BDFFF0)).2).2 0x08804000
        = Memory.ReadUnchecked_U32 (fun _ => 0x27BDFFF0) 0x08804000 :=
  finalize_destroy_round_trip (fun _ => 0x27BDFFF0) ⟨[], 0x08804000, 4, 0⟩ 3 (by norm_num)
    (by decide)

/-! ## Overlap test (C4) -/

/-- C4, as stated, fails in two ways. For an empty range: the block `[0x1000, 0x1010)` and the
range `[0x1004, 0x1004)` have no address in common, yet `OverlapsRange(0x1004, 0)` is true. And
when a sum wraps at `2^32`: the block `[0x100, 0x104)` lies inside `[0x10, 0x10 + 0xFFFFFFF8)`,
yet `OverlapsRange(0x10, 0xFFFFFFF8)` is false. -/
theorem overlapsRange_empty_range_inside_block :
    (IRBlock.OverlapsRange ⟨[], 0x1000, 0x10, 0⟩ 0x1004 0 = true ∧
      ¬ ∃ x : Nat, (0x1004 &&& 0x3FFFFFFF) ≤ x ∧ x < (0x1004 &&& 0x3FFFFFFF) + 0 ∧
          (0x1000 &&& 0x3FFFFFFF) ≤ x ∧ x < (0x1000 &&& 0x3FFFFFFF) + 0x10) ∧
    (IRBlock.OverlapsRange ⟨[], 0x100, 4, 0⟩ 0x10 0xFFFFFFF8 = false ∧
      ∃ x : Nat, (0x10 &&& 0x3FFFFFFF) ≤ x ∧ x < (0x10 &&& 0x3FFFFFFF) + 0xFFFFFFF8 ∧
          (0x100 &&& 0x3FFFFFFF) ≤ x ∧ x < (0x100 &&& 0x3FFFFFFF) + 4) := by
  refine ⟨⟨?_, ?_⟩, ?_, ⟨0x100, by decide⟩⟩
  · simp [IRBlock.OverlapsRange, and_mask_eq_mod]
  · rintro ⟨x, _, h2, _, _⟩
    omega
  · simp [IRBlock.OverlapsRange, and_mask_eq_mod]

/-- C4 (amended): for a block with start address `s` and non-zero byte length `n` and a range
of non-zero `length`, with `a = address & 0x3FFFFFFF`, `s' = s & 0x3FFFFFFF` and both `a + length`
and `s' + n` below `2^32`, `OverlapsRange(address, length)` is true if and only if the half-open
intervals `[a, a+length)` and `[s', s'+n)` have an address in common. -/
theorem overlapsRange_iff_intersect (b : IRBlock) (address length : Nat)
    (hlen : 0 < length) (hn : 0 < b.origSize_)
    (ha : (address &&& 0x3FFFFFFF) + length < 2 ^ 32)
    (hs : (b.origAddr_ &&& 0x3FFFFFFF) + b.origSize_ < 2 ^ 32) :
    b.OverlapsRange address length = true ↔
      ∃ x : Nat, (address &&& 0x3FFFFFFF) ≤ x ∧ x < (address &&& 0x3FFFFFFF) + length ∧
        (b.origAddr_ &&& 0x3FFFFFFF) ≤ x ∧ x < (b.origAddr_ &&& 0x3FFFFFFF) + b.origSize_ := by
  unfold IRBlock.OverlapsRange
  simp only [Nat.mod_eq_of_lt ha, Nat.mod_eq_of_lt hs, Bool.and_eq_true, decide_eq_true_eq]
  generalize (address &&& 0x3FFFFFFF) = a at *
  generalize (b.origAddr_ &&& 0x3FFFFFFF) = s at *
  constructor
  · rintro ⟨h1, h2⟩
    exact ⟨max a s, by omega, by omega, by omega, by omega⟩
  · rintro ⟨x, h1, h2, h3, h4⟩
    omega

/-- Witness of C4: the block `[0x08804000, 0x08804010)` and the mirrored range
`[0x88804008, 0x8880400C)`. -/
theorem overlapsRange_iff_intersect_witness :
    IRBlock.OverlapsRange ⟨[], 0x08804000, 0x10, 0⟩ 0x88804008 4 = true ↔
      ∃ x : Nat, (0x88804008 &&& 0x3FFFFFFF) ≤ x ∧ x < (0x88804008 &&& 0x3FFFFFFF) + 4 ∧
        (0x08804000 &&& 0x3FFFFFFF) ≤ x ∧ x < (0x08804000 &&& 0x3FFFFFFF) + 0x10 :=
  overlapsRange_iff_intersect ⟨[], 0x08804000, 0x10, 0⟩ 0x88804008 4 (by decide) (by decide)
    (by simp [and_mask_eq_mod]) (by simp [and_mask_eq_mod])

/-! ## Idempotent destroy (C9) -/

/-- C9: `Destroy(n)` directly after `Destroy(n)` changes neither guest memory nor any field of
the block: the two calls yield the state of a single call. -/
theorem destroy_idempotent (b : IRBlock) (n : Nat) (m : Mem) :
    (b.Destroy n m).1.Destroy n (b.Destroy n m).2 = b.Destroy n m := by
  unfold IRBlock.Destroy
  by_cases h : b.origAddr_ = 0 <;> simp [h]

/-! ## Restore with a wrong-sized marker sequence (C7) -/

theorem destroy_mem (b : IRBlock) (n : Nat) (m : Mem) (x : Nat) :
    (b.Destroy n m).2 x =
      if b.origAddr_ ≠ 0 ∧ m b.origAddr_ = emuhack n ∧ x = b.origAddr_ then b.origFirstOpcode_
      else m x := by
  unfold IRBlock.Destroy
  by_cases h0 : b.origAddr_ = 0
  · simp [h0]
  · by_cases h1 : m b.origAddr_ = emuhack n
    · by_cases hx : x = b.origAddr_ <;>
        simp [h0, h1, hx, Memory.ReadUnchecked_U32, Memory.Write_Opcode_JIT]
    · simp [h0, h1, Memory.ReadUnchecked_U32]

/-- One pass of `Compile` never fails: the block it finalizes is the one it allocated. -/
theorem compilePass_eq {σ : Type} (fe : IRFrontend σ) (j : IRJit σ) (m : Mem) (X : Nat) :
    IRJit.compilePass fe j m X =
      some ({ blocks_ :=
                { blocks_ := j.blocks_.blocks_ ++
                    [⟨(fe.DoJit j.frontend_ m X).1.1, X, (fe.DoJit j.frontend_ m X).1.2, m X⟩],
                  byPage_ := pushPages j.blocks_.byPage_ j.blocks_.blocks_.length
                    (pagesFromTo (IRBlockCache.AddressToPage X)
                      (IRBlockCache.AddressToPage
                        ((X + (fe.DoJit j.frontend_ m X).1.2) % 2 ^ 32))) },
              frontend_ := (fe.CheckRounding (fe.DoJit j.frontend_ m X).2 X).2 },
            Memory.Write_Opcode_JIT m X (emuhack j.blocks_.blocks_.length),
            (fe.CheckRounding (fe.DoJit j.frontend_ m X).2 X).1) := by
  simp [IRJit.compilePass, IRBlockCache.AllocateBlock, IRBlockCache.GetBlock,
    IRBlockCache.FinalizeBlock, IRBlock.Finalize, IRBlock.SetInstructions,
    IRBlock.SetOriginalSize, IRBlock.GetRange, Memory.Read_Opcode_JIT]

/-- C10: if the frontend reports a rounding violation on the first check and none on the
second, `Compile(X)` returns (two levels of recursion suffice) and leaves a cache of exactly
one block: it starts at `X`, holds the instructions and byte length the frontend returned for
`X` on the second translation, and the guest word at `X` is its sentinel; the word it saved is
the word the reset left at `X`, and no other guest word differs from the memory after the
reset. -/
theorem compile_rounding_reset {σ : Type} (fe : IRFrontend σ) (j : IRJit σ) (m : Mem) (X : Nat)
    (fuel : Nat)
    (h1 : (fe.CheckRounding (fe.DoJit j.frontend_ m X).2 X).1 = true)
    (h2 : (fe.CheckRounding (fe.DoJit (IRJit.afterReset fe j m X).1.frontend_
            (IRJit.afterReset fe j m X).2 X).2 X).1 = false) :
    ∃ j2 m2, IRJit.Compile fe (fuel + 2) j m X = some (j2, m2) ∧
      j2.blocks_.blocks_ =
        [⟨(fe.DoJit (IRJit.afterReset fe j m X).1.frontend_ (IRJit.afterReset fe j m X).2 X).1.1,
          X,
          (fe.DoJit (IRJit.afterReset fe j m X).1.frontend_ (IRJit.afterReset fe j m X).2 X).1.2,
          Memory.ReadUnchecked_U32 (IRJit.afterReset fe j m X).2 X⟩] ∧
      Memory.ReadUnchecked_U32 m2 X = MIPS_EMUHACK_OPCODE ||| 0 ∧
      (∀ x, x ≠ X → Memory.ReadUnchecked_U32 m2 x
        = Memory.ReadUnchecked_U32 (IRJit.afterReset fe j m X).2 x) := by
  have hreset : (IRJit.afterReset fe j m X).1.blocks_.blocks_ = [] := by
    simp [IRJit.afterReset, compilePass_eq, IRJit.ClearCache, IRBlockCache.Clear]
  have hpass := compilePass_eq fe (IRJit.afterReset fe j m X).1 (IRJit.afterReset fe j m X).2 X
  rw [hreset, h2] at hpass
  obtain ⟨r2, hr2, hb2, hm2, hk2⟩ : ∃ r2,
      IRJit.compilePass fe (IRJit.afterReset fe j m X).1 (IRJit.afterReset fe j m X).2 X
        = some r2 ∧
      r2.1.blocks_.blocks_ =
        [⟨(fe.DoJit (IRJit.afterReset fe j m X).1.frontend_ (IRJit.afterReset fe j m X).2 X).1.1,
          X,
          (fe.DoJit (IRJit.afterReset fe j m X).1.frontend_ (IRJit.afterReset fe j m X).2 X).1.2,
          (IRJit.afterReset fe j m X).2 X⟩] ∧
      r2.2.1 = Memory.Write_Opcode_JIT (IRJit.afterReset fe j m X).2 X (emuhack 0) ∧
      r2.2.2 = false := ⟨_, hpass, by simp, rfl, rfl⟩
  obtain ⟨r1, hr1, hk1⟩ : ∃ r1, IRJit.compilePass fe j m X = some r1 ∧ r1.2.2 = true :=
    ⟨_, compilePass_eq fe j m X, h1⟩
  have hcl : IRJit.ClearCache r1.1 r1.2.1 = IRJit.afterReset fe j m X := by
    simp [IRJit.afterReset, hr1]
  refine ⟨r2.1, r2.2.1, ?_, hb2, ?_, ?_⟩
  · rw [IRJit.Compile, hr1]
    simp only [hk1, if_true]
    rw [hcl, IRJit.Compile, hr2]
    simp only [hk2, Bool.false_eq_true, if_false]
  · rw [hm2]
    simp [Memory.ReadUnchecked_U32, Memory.Write_Opcode_JIT, emuhack, MIPS_EMUHACK_OPCODE]
  · intro x hx
    rw [hm2]
    simp [Memory.ReadUnchecked_U32, Memory.Write_Opcode_JIT, hx]

/-- Witness of C10: `Compile(0x08804000)` with the counting frontend on a jit of one block. -/
theorem compile_rounding_reset_witness :
    (countingFrontend.CheckRounding
        (countingFrontend.DoJit oneBlockJit.frontend_ (fun _ => 0) 0x08804000).2 0x08804000).1
        = true ∧
      ∃ j2 m2, IRJit.Compile countingFrontend 2 oneBlockJit (fun _ => 0) 0x08804000
          = some (j2, m2) ∧
        j2.blocks_.blocks_ =
          [⟨(countingFrontend.DoJit
                (IRJit.afterReset countingFrontend oneBlockJit (fun _ => 0) 0x08804000).1.frontend_
                (IRJit.afterReset countingFrontend oneBlockJit (fun _ => 0) 0x08804000).2
                0x08804000).1.1,
            0x08804000,
            (countingFrontend.DoJit
                (IRJit.afterReset countingFrontend oneBlockJit (fun _ => 0) 0x08804000).1.frontend_
                (IRJit.afterReset countingFrontend oneBlockJit (fun _ => 0) 0x08804000).2
                0x08804000).1.2,
            Memory.ReadUnchecked_U32
              (IRJit.afterReset countingFrontend oneBlockJit (fun _ => 0) 0x08804000).2
              0x08804000⟩] ∧
        Memory.ReadUnchecked_U32 m2 0x08804000 = MIPS_EMUHACK_OPCODE ||| 0 ∧
        (∀ x, x ≠ 0x08804000 → Memory.ReadUnchecked_U32 m2 x
          = Memory.ReadUnchecked_U32
              (IRJit.afterReset countingFrontend oneBlockJit (fun _ => 0) 0x08804000).2 x) :=
  ⟨rfl, compile_rounding_reset countingFrontend oneBlockJit (fun _ => 0) 0x08804000 0 rfl
    (by simp [IRJit.afterReset, compilePass_eq, IRJit.ClearCache, countingFrontend,
      oneBlockJit])⟩

/-! ## Save and restore around serialization (C5, C6) -/

/-- C5 at a failing input: blocks 0 and 1 are finalized at `0x08804000` and `0x08804100` over
words `0x27BDFFF0`. `SaveAndClearEmuHackOps` puts both original words back and returns
`[0, 1]`. `RestoreSavedEmuHackOps` on that sequence writes the sentinel of block 1 again but not
the one of block 0: the guest word at `0x08804000` stays `0x27BDFFF0` instead of
`MIPS_EMUHACK_OPCODE | 0`. -/
theorem save_restore_loses_block_zero :
    twoBlocksFinalized.map (fun r => (r.1.blocks_.map (fun b => b.origAddr_),
        Memory.ReadUnchecked_U32 r.2 0x08804000, Memory.ReadUnchecked_U32 r.2 0x08804100))
      = some ([0x08804000, 0x08804100], MIPS_EMUHACK_OPCODE ||| 0, MIPS_EMUHACK_OPCODE ||| 1) ∧
    twoBlocksFinalized.map (fun r =>
        (Memory.ReadUnchecked_U32 (r.1.SaveAndClearEmuHackOps r.2).2 0x08804000,
          Memory.ReadUnchecked_U32 (r.1.SaveAndClearEmuHackOps r.2).2 0x08804100))
      = some (0x27BDFFF0, 0x27BDFFF0) ∧
    twoBlocksFinalized.map (fun r =>
        ((r.1.RestoreSavedEmuHackOps (r.1.SaveAndClearEmuHackOps r.2).1
            (r.1.SaveAndClearEmuHackOps r.2).2).1,
          Memory.ReadUnchecked_U32
            (r.1.RestoreSavedEmuHackOps (r.1.SaveAndClearEmuHackOps r.2).1
              (r.1.SaveAndClearEmuHackOps r.2).2).2.2 0x08804000,
          Memory.ReadUnchecked_U32
            (r.1.RestoreSavedEmuHackOps (r.1.SaveAndClearEmuHackOps r.2).1
              (r.1.SaveAndClearEmuHackOps r.2).2).2.2 0x08804100))
      = some (false, 0x27BDFFF0, MIPS_EMUHACK_OPCODE ||| 1) ∧
    0x27BDFFF0 ≠ MIPS_EMUHACK_OPCODE ||| 0 := by
  refine ⟨by decide, by decide, by decide, by decide⟩

/-- C6 at a failing input: blocks 0 and 1 are live and the guest words at their start
addresses are their own sentinels when `SaveAndClearEmuHackOps` is called. Both words are
replaced by the saved original words, and the entry returned for block 1 is non-zero, yet the
entry returned for block 0 is 0, the value that stands for "was not patched". -/
theorem save_marker_of_block_zero_is_zero :
    twoBlocksFinalized.map (fun r => (r.1.blocks_.map (fun b => b.IsValid),
        decide (Memory.ReadUnchecked_U32 r.2 0x08804000 = MIPS_EMUHACK_OPCODE ||| 0),
        decide (Memory.ReadUnchecked_U32 r.2 0x08804100 = MIPS_EMUHACK_OPCODE ||| 1)))
      = some ([true, true], true, true) ∧
    twoBlocksFinalized.map (fun r => (r.1.SaveAndClearEmuHackOps r.2).1) = some [0, 1] ∧
    twoBlocksFinalized.map (fun r =>
        (r.1.blocks_.map (fun b => (b.origAddr_,
          Memory.ReadUnchecked_U32 (r.1.SaveAndClearEmuHackOps r.2).2 b.origAddr_,
          b.origFirstOpcode_))))
      = some [(0x08804000, 0x27BDFFF0, 0x27BDFFF0), (0x08804100, 0x27BDFFF0, 0x27BDFFF0)] := by
  refine ⟨by decide, by decide, by decide⟩

/-! ## The loops of `InvalidateICache` -/

theorem destroy_fst (b : IRBlock) (n : Nat) (m : Mem) :
    (b.Destroy n m).1 = { b with origAddr_ := 0 } := by
  unfold IRBlock.Destroy
  by_cases h : b.origAddr_ = 0
  · cases b
    simp_all
  · simp [h]

theorem invalidateBlocks_append (a l : Nat) (L1 L2 : List Nat) (bs : List IRBlock) (m : Mem) :
    invalidateBlocks a l (L1 ++ L2) bs m =
      (invalidateBlocks a l L1 bs m).bind (fun r => invalidateBlocks a l L2 r.1 r.2) := by
  induction L1 generalizing bs m with
  | nil => simp [invalidateBlocks]
  | cons i rest ih =>
    simp only [List.cons_append, invalidateBlocks]
    cases bs[i]? with
    | none => simp
    | some b =>
      simp only
      split <;> exact ih _ _

theorem invalidatePages_eq_visit (a l : Nat) (byPage : Nat → Option (List Nat))
    (pages : List Nat) (bs : List IRBlock) (m : Mem) :
    invalidatePages a l byPage pages bs m = invalidateBlocks a l (visitList byPage pages) bs m := by
  induction pages generalizing bs m with
  | nil => rfl
  | cons p rest ih =>
    have hv : visitList byPage (p :: rest) = pageList byPage p ++ visitList byPage rest := by
      simp [visitList]
    rw [hv, invalidateBlocks_append]
    unfold invalidatePages pageList
    cases byPage p with
    | none => simpa [invalidateBlocks] using ih bs m
    | some L =>
      simp only [Option.getD_some]
      cases invalidateBlocks a l L bs m with
      | none => simp
      | some r => simpa using ih r.1 r.2

/-- The visit loop returns when every visited number names a block. -/
theorem invalidateBlocks_some (a l : Nat) (L : List Nat) (bs : List IRBlock) (m : Mem)
    (h : ∀ i ∈ L, i < bs.length) : ∃ r, invalidateBlocks a l L bs m = some r := by
  induction L generalizing bs m with
  | nil => exact ⟨_, rfl⟩
  | cons i rest ih =>
    have hi : i < bs.length := h i (by simp)
    simp only [invalidateBlocks, List.getElem?_eq_getElem hi]
    split
    · exact ih _ _ (fun k hk => by simpa using h k (by simp [hk]))
    · exact ih _ _ (fun k hk => h k (by simp [hk]))

theorem DestroyedFrom.refl (a l : Nat) (bs : List IRBlock) : DestroyedFrom a l bs bs :=
  ⟨rfl, fun _ _ h => Or.inl h⟩

theorem DestroyedFrom.trans {a l : Nat} {bs bs1 bs2 : List IRBlock}
    (h1 : DestroyedFrom a l bs bs1) (h2 : DestroyedFrom a l bs1 bs2) :
    DestroyedFrom a l bs bs2 := by
  refine ⟨h2.1.trans h1.1, fun i b hb => ?_⟩
  rcases h1.2 i b hb with h | ⟨ho, h⟩
  · exact h2.2 i b h
  · rcases h2.2 i _ h with h3 | ⟨_, h3⟩
    · exact Or.inr ⟨ho, h3⟩
    · exact Or.inr ⟨ho, h3⟩

theorem DestroyedFrom.step {a l : Nat} {bs : List IRBlock} {k : Nat} {bk : IRBlock}
    (hk : bs[k]? = some bk) (ho : bk.OverlapsRange a l = true) :
    DestroyedFrom a l bs (bs.set k { bk with origAddr_ := 0 }) := by
  refine ⟨by simp, fun i b hb => ?_⟩
  by_cases hik : k = i
  · subst hik
    rw [hk] at hb
    cases hb
    right
    refine ⟨ho, ?_⟩
    rw [List.getElem?_set_self (List.getElem?_eq_some.mp hk).1]
  · left
    rw [List.getElem?_set_ne hik]
    exact hb

theorem invalidateBlocks_destroyedFrom (a l : Nat) (L : List Nat) (bs : List IRBlock) (m : Mem)
    (r : List IRBlock × Mem) (h : invalidateBlocks a l L bs m = some r) :
    DestroyedFrom a l bs r.1 := by
  induction L generalizing bs m with
  | nil =>
    simp only [invalidateBlocks, Option.some.injEq] at h
    subst h
    exact DestroyedFrom.refl a l bs
  | cons k rest ih =>
    simp only [invalidateBlocks] at h
    cases hk : bs[k]? with
    | none => simp [hk] at h
    | some bk =>
      simp only [hk] at h
      by_cases ho : bk.OverlapsRange a l = true
      · rw [if_pos ho, destroy_fst] at h
        exact (DestroyedFrom.step hk ho).trans (ih _ _ h)
      · rw [if_neg ho] at h
        exact ih _ _ h

/-- A guest word survives the visit loop when no visited block that starts there, is live and
passes the overlap test has that word as its sentinel. -/
theorem invalidateBlocks_mem_frame (a l : Nat) (L : List Nat) (bs : List IRBlock) (m : Mem)
    (r : List IRBlock × Mem) (x : Nat) (h : invalidateBlocks a l L bs m = some r)
    (hx : ∀ k ∈ L, ∀ bk, bs[k]? = some bk → bk.origAddr_ = x → x ≠ 0 →
      bk.OverlapsRange a l = true → emuhack k ≠ m x) :
    r.2 x = m x := by
  induction L generalizing bs m with
  | nil =>
    simp only [invalidateBlocks, Option.some.injEq] at h
    subst h
    rfl
  | cons k rest ih =>
    simp only [invalidateBlocks] at h
    cases hk : bs[k]? with
    | none => simp [hk] at h
    | some bk =>
      simp only [hk] at h
      by_cases ho : bk.OverlapsRange a l = true
      · rw [if_pos ho, destroy_fst] at h
        have hm : (bk.Destroy k m).2 x = m x := by
          rw [destroy_mem]
          split
          · next hc =>
            exact absurd hc.2.1.symm
              (hc.2.2 ▸ hx k (by simp) bk hk hc.2.2.symm (hc.2.2 ▸ hc.1) ho)
          · rfl
        rw [ih _ _ h, hm]
        intro k2 hk2 b2 hb2 hadr hx0 ho2
        rw [hm]
        by_cases hkk : k = k2
        · subst hkk
          rw [List.getElem?_set_self (List.getElem?_eq_some.mp hk).1] at hb2
          cases hb2
          exact absurd hadr.symm hx0
        · rw [List.getElem?_set_ne hkk] at hb2
          exact hx k2 (by simp [hk2]) b2 hb2 hadr hx0 ho2
      · rw [if_neg ho] at h
        exact ih _ _ h (fun k2 hk2 => hx k2 (by simp [hk2]))

theorem mem_visitList (byPage : Nat → Option (List Nat)) (pages : List Nat) (i : Nat) :
    i ∈ visitList byPage pages ↔ ∃ p ∈ pages, i ∈ pageList byPage p := by
  simp [visitList]

theorem visitList_lt (c : IRBlockCache) (hv : ValidPageIndex c) (pages : List Nat) :
    ∀ i ∈ visitList c.byPage_ pages, i < c.blocks_.length := by
  intro i hi
  rcases (mem_visitList _ _ _).mp hi with ⟨p, _, hp⟩
  unfold pageList at hp
  cases hL : c.byPage_ p with
  | none => simp [hL] at hp
  | some L =>
    rw [hL] at hp
    exact hv p L hL i hp

/-- `InvalidateICache` as one visit loop over the numbers of all pages of the range. -/
theorem invalidateICache_eq (c : IRBlockCache) (address length : Nat) (m : Mem) :
    c.InvalidateICache address length m =
      (invalidateBlocks address length
          (visitList c.byPage_
            (pagesFromTo (IRBlockCache.AddressToPage address)
              (IRBlockCache.AddressToPage ((address + length) % 2 ^ 32))))
          c.blocks_ m).map (fun r => ({ c with blocks_ := r.1 }, r.2)) := by
  unfold IRBlockCache.InvalidateICache
  simp only [invalidatePages_eq_visit]
  cases invalidateBlocks address length _ c.blocks_ m <;> rfl

theorem mem_pagesFromTo (lo hi p : Nat) : p ∈ pagesFromTo lo hi ↔ lo ≤ p ∧ p ≤ hi := by
  unfold pagesFromTo
  rw [List.mem_range'_1]
  omega

theorem nodup_pagesFromTo (lo hi : Nat) : (pagesFromTo lo hi).Nodup :=
  List.nodup_range' _ _

theorem pageList_pushBack (f : Nat → Option (List Nat)) (q i p : Nat) :
    pageList (pushBack f q i) p = pageList f p ++ (if p = q then [i] else []) := by
  unfold pageList pushBack
  by_cases h : p = q
  · subst h
    simp
  · simp [h]

theorem pageList_pushPages (f : Nat → Option (List Nat)) (i : Nat) (ps : List Nat) (p : Nat)
    (hnd : ps.Nodup) :
    pageList (pushPages f i ps) p = pageList f p ++ (if p ∈ ps then [i] else []) := by
  induction ps generalizing f with
  | nil => simp [pushPages]
  | cons q rest ih =>
    rw [List.nodup_cons] at hnd
    rw [pushPages, ih _ hnd.2, pageList_pushBack]
    by_cases h : p = q
    · subst h
      simp [hnd.1]
    · simp [h]

/-- The allocate, populate, finalize step never fails and appends one block. -/
theorem addBlock_eq (c : IRBlockCache) (X : Nat) (inst : List IRInst) (size : Nat) (m : Mem) :
    c.addBlock X inst size m =
      some ({ blocks_ := c.blocks_ ++ [⟨inst, X, size, m X⟩],
              byPage_ := pushPages c.byPage_ c.blocks_.length
                (pagesFromTo (IRBlockCache.AddressToPage X)
                  (IRBlockCache.AddressToPage ((X + size) % 2 ^ 32))) },
            Memory.Write_Opcode_JIT m X (emuhack c.blocks_.length)) := by
  simp [IRBlockCache.addBlock, IRBlockCache.AllocateBlock, IRBlockCache.GetBlock,
    IRBlockCache.FinalizeBlock, IRBlock.Finalize, IRBlock.SetInstructions,
    IRBlock.SetOriginalSize, IRBlock.GetRange, Memory.Read_Opcode_JIT]

theorem emuhack_eq_add {n : Nat} (hn : n < 2 ^ 24) : emuhack n = 0x68000000 + n := by
  rw [emuhack_eq_of_lt hn]
  have h := Nat.mul_add_lt_is_or hn 0x68
  unfold MIPS_EMUHACK_OPCODE
  norm_num at h ⊢
  exact h.symm

theorem emuhack_inj {i k : Nat} (hi : i < 2 ^ 24) (hk : k < 2 ^ 24)
    (h : emuhack i = emuhack k) : i = k := by
  rw [emuhack_eq_add hi, emuhack_eq_add hk] at h
  omega

theorem builtInv_of_built (c : IRBlockCache) (m : Mem) (h : Built c m) : BuiltInv c m := by
  induction h with
  | empty m =>
    exact ⟨fun p j hj => by simp [pageList] at hj, fun p => by simp [pageList],
      fun j b p hb => by simp at hb, fun _ i k bi bk hi => by simp at hi⟩
  | add c m X inst size c2 m2 _ hadd ih =>
    rw [addBlock_eq] at hadd
    simp only [Option.some.injEq, Prod.mk.injEq] at hadd
    obtain ⟨hc, hm⟩ := hadd
    subst hc hm
    have hpl : ∀ p, pageList (pushPages c.byPage_ c.blocks_.length
          (pagesFromTo (IRBlockCache.AddressToPage X)
            (IRBlockCache.AddressToPage ((X + size) % 2 ^ 32)))) p
        = pageList c.byPage_ p ++
          (if IRBlockCache.AddressToPage X ≤ p ∧
              p ≤ IRBlockCache.AddressToPage ((X + size) % 2 ^ 32)
            then [c.blocks_.length] else []) := by
      intro p
      rw [pageList_pushPages _ _ _ _ (nodup_pagesFromTo _ _)]
      simp only [mem_pagesFromTo]
    refine ⟨?_, ?_, ?_, ?_⟩
    · intro p j hj
      simp only [hpl, List.mem_append] at hj
      simp only [List.length_append, List.length_singleton]
      rcases hj with hj | hj
      · have := ih.bound p j hj
        omega
      · split at hj
        · simp at hj
          omega
        · simp at hj
    · intro p
      simp only [hpl]
      rw [List.pairwise_append]
      refine ⟨ih.sorted p, ?_, ?_⟩
      · split <;> simp
      · intro x hx y hy
        split at hy
        · simp at hy
          subst hy
          exact ih.bound p x hx
        · simp at hy
    · intro j b p hb
      simp only [hpl, List.mem_append]
      by_cases hj : j < c.blocks_.length
      · rw [List.getElem?_append_left hj] at hb
        rw [← ih.member j b p hb]
        constructor
        · rintro (h | h)
          · exact h
          · split at h
            · simp at h
              omega
            · simp at h
        · exact fun h => Or.inl h
      · have hlen : (c.blocks_ ++ [(⟨inst, X, size, m X⟩ : IRBlock)]).length
            = c.blocks_.length + 1 := by simp
        have hj2 : j < c.blocks_.length + 1 := by
          rw [← hlen]
          exact (List.getElem?_eq_some.mp hb).1
        have hje : j = c.blocks_.length := by omega
        subst hje
        rw [List.getElem?_concat_length] at hb
        cases hb
        simp only [IRBlock.firstPage, IRBlock.lastPage]
        constructor
        · rintro (h | h)
          · exact absurd (ih.bound p _ h) (lt_irrefl _)
          · split at h
            · assumption
            · simp at h
        · intro h
          right
          rw [if_pos h]
          simp
    · intro hlen i k bi bk hi hk hadr hmem
      simp only [List.length_append, List.length_singleton] at hlen
      have hilt : i < c.blocks_.length + 1 := by
        have := (List.getElem?_eq_some.mp hi).1
        simpa using this
      have hklt : k < c.blocks_.length + 1 := by
        have := (List.getElem?_eq_some.mp hk).1
        simpa using this
      by_cases hX : bi.origAddr_ = X
      · rw [hX, write_same] at hmem
        have := emuhack_inj (by omega) (by omega) hmem
        omega
      · rw [write_other _ _ _ _ hX] at hmem
        have hi2 : i < c.blocks_.length := by
          rcases Nat.lt_succ_iff_lt_or_eq.mp hilt with h | h
          · exact h
          · subst h
            rw [List.getElem?_concat_length] at hi
            cases hi
            exact absurd rfl hX
        have hk2 : k < c.blocks_.length := by
          rcases Nat.lt_succ_iff_lt_or_eq.mp hklt with h | h
          · exact h
          · subst h
            rw [List.getElem?_concat_length] at hk
            cases hk
            exact absurd hadr hX
        rw [List.getElem?_append_left hi2] at hi
        rw [List.getElem?_append_left hk2] at hk
        exact ih.top (by omega) i k bi bk hi hk hadr hmem

/-! ## Invalidation completeness (C2) -/

/-- A visited block that passes the overlap test ends with its start address reset. -/
theorem invalidateBlocks_destroys (a l : Nat) (L : List Nat) (bs : List IRBlock) (m : Mem)
    (r : List IRBlock × Mem) (h : invalidateBlocks a l L bs m = some r)
    (i : Nat) (b : IRBlock) (hb : bs[i]? = some b)
    (ho : b.OverlapsRange a l = true ∨ b.origAddr_ = 0) (hi : i ∈ L ∨ b.origAddr_ = 0) :
    r.1[i]? = some { b with origAddr_ := 0 } := by
  induction L generalizing bs m b with
  | nil =>
    simp only [invalidateBlocks, Option.some.injEq] at h
    subst h
    rcases hi with hi | hi
    · simp at hi
    · rw [hb]
      cases b
      simp_all
  | cons k rest ih =>
    simp only [invalidateBlocks] at h
    cases hk : bs[k]? with
    | none => simp [hk] at h
    | some bk =>
      simp only [hk] at h
      by_cases hok : bk.OverlapsRange a l = true
      · rw [if_pos hok, destroy_fst] at h
        by_cases hki : k = i
        · subst hki
          rw [hk] at hb
          cases hb
          have := ih _ _ h { b with origAddr_ := 0 }
            (by rw [List.getElem?_set_self (List.getElem?_eq_some.mp hk).1])
            (Or.inr rfl) (Or.inr rfl)
          simpa using this
        · refine ih _ _ h b (by rw [List.getElem?_set_ne hki]; exact hb) ho ?_
          rcases hi with hi | hi
          · left
            simpa [Ne.symm hki] using hi
          · exact Or.inr hi
      · rw [if_neg hok] at h
        refine ih _ _ h b hb ho ?_
        by_cases hki : k = i
        · subst hki
          rw [hk] at hb
          cases hb
          rcases ho with ho | ho
          · exact absurd ho hok
          · exact Or.inr ho
        · rcases hi with hi | hi
          · left
            simpa [Ne.symm hki] using hi
          · exact Or.inr hi

theorem noLaterVisit_of_not_mem (k i : Nat) (L : List Nat) (h : k ∉ L) : noLaterVisit k i L := by
  induction L with
  | nil => trivial
  | cons x xs ih =>
    simp only [List.mem_cons, not_or] at h
    by_cases hx : x = i
    · exact Or.inr (Or.inl ⟨hx, h.2⟩)
    · exact Or.inr (Or.inr ⟨hx, ih h.2⟩)

theorem noLaterVisit_append_of_not_mem (k i : Nat) (A B : List Nat) (hi : i ∉ A)
    (hB : noLaterVisit k i B) : noLaterVisit k i (A ++ B) := by
  induction A with
  | nil => exact hB
  | cons x xs ih =>
    simp only [List.mem_cons, not_or] at hi
    exact Or.inr (Or.inr ⟨fun h => hi.1 h.symm, ih hi.2⟩)

theorem noLaterVisit_append_of_sorted (k i : Nat) (A B : List Nat)
    (hs : A.Pairwise (fun x y => x < y)) (hki : k < i) (hk : k ∈ A) :
    noLaterVisit k i (A ++ B) := by
  induction A with
  | nil => simp at hk
  | cons x xs ih =>
    by_cases hx : x = k
    · exact Or.inl hx
    · rw [List.pairwise_cons] at hs
      have hkx : k ∈ xs := by
        simpa [Ne.symm hx] using hk
      have hlt : x < k := hs.1 k hkx
      exact Or.inr (Or.inr ⟨by omega, ih hs.2 hkx⟩)

/-- The visit loop leaves the saved original word of block `i` at its start address: block `i`
is live, visited, passes the overlap test and holds its sentinel, and every other block that
starts at the same address and whose sentinel is the saved word of block `i` is visited in the
order of `noLaterVisit`. -/
theorem invalidateBlocks_restores (a l : Nat) (L : List Nat) (bs : List IRBlock) (m : Mem)
    (r : List IRBlock × Mem) (h : invalidateBlocks a l L bs m = some r)
    (hcap : bs.length ≤ 2 ^ 24) (i : Nat) (b : IRBlock) (hb : bs[i]? = some b)
    (hlive : b.origAddr_ ≠ 0) (ho : b.OverlapsRange a l = true)
    (hm : m b.origAddr_ = emuhack i) (hi : i ∈ L)
    (hord : ∀ (k : Nat) (bk : IRBlock), bs[k]? = some bk → bk.origAddr_ = b.origAddr_ →
      bk.OverlapsRange a l = true → emuhack k = b.origFirstOpcode_ → k ≠ i →
      noLaterVisit k i L) :
    r.2 b.origAddr_ = b.origFirstOpcode_ := by
  induction L generalizing bs m with
  | nil => simp at hi
  | cons x xs ih =>
    simp only [invalidateBlocks] at h
    cases hx : bs[x]? with
    | none => simp [hx] at h
    | some bx =>
      simp only [hx] at h
      have hxlt : x < bs.length := (List.getElem?_eq_some.mp hx).1
      have hilt : i < bs.length := (List.getElem?_eq_some.mp hb).1
      by_cases hxi : x = i
      · subst hxi
        rw [hb] at hx
        cases hx
        rw [if_pos ho, destroy_fst] at h
        have hm1 : (b.Destroy x m).2 b.origAddr_ = b.origFirstOpcode_ := by
          rw [destroy_mem]
          simp [hlive, hm]
        rw [invalidateBlocks_mem_frame a l xs _ _ r b.origAddr_ h, hm1]
        intro k hk bk hbk hadr _ hok
        rw [hm1]
        by_cases hkx : x = k
        · subst hkx
          rw [List.getElem?_set_self hxlt] at hbk
          cases hbk
          exact absurd hadr.symm hlive
        · rw [List.getElem?_set_ne hkx] at hbk
          intro he
          rcases hord k bk hbk hadr hok he (Ne.symm hkx) with h1 | h1 | h1
          · exact hkx h1
          · exact h1.2 hk
          · exact h1.1 rfl
      · have hi2 : i ∈ xs := by
          simpa [Ne.symm hxi] using hi
        by_cases hox : bx.OverlapsRange a l = true
        · rw [if_pos hox, destroy_fst] at h
          have hm1 : (bx.Destroy x m).2 b.origAddr_ = m b.origAddr_ := by
            rw [destroy_mem]
            split
            · next hc =>
              have := emuhack_inj (by omega) (by omega) (hm.symm.trans (hc.2.2 ▸ hc.2.1))
              exact absurd this.symm hxi
            · rfl
          refine ih _ _ h (by simpa using hcap) (by rw [List.getElem?_set_ne hxi]; exact hb)
            (by rw [hm1]; exact hm) hi2 ?_
          intro k bk hbk hadr hok he hki
          by_cases hkx : x = k
          · subst hkx
            rw [List.getElem?_set_self hxlt] at hbk
            cases hbk
            exact absurd hadr.symm hlive
          · rw [List.getElem?_set_ne hkx] at hbk
            rcases hord k bk hbk hadr hok he hki with h1 | h1 | h1
            · exact absurd h1 hkx
            · exact absurd h1.1 hxi
            · exact h1.2
        · rw [if_neg hox] at h
          refine ih _ _ h hcap hb hm hi2 ?_
          intro k bk hbk hadr hok he hki
          rcases hord k bk hbk hadr hok he hki with h1 | h1 | h1
          · subst h1
            rw [hx] at hbk
            cases hbk
            exact absurd hok hox
          · exact absurd h1.1 hxi
          · exact h1.2

theorem addressToPage_eq (x : Nat) : IRBlockCache.AddressToPage x = x % 2 ^ 30 / 2 ^ 10 := by
  unfold IRBlockCache.AddressToPage
  rw [and_mask_eq_mod, Nat.shiftRight_eq_div_pow]

/-- Over consecutive pages, two blocks with the same first page are visited in the order of
`noLaterVisit` when the page lists are ascending and list a block on all of its pages. -/
theorem noLaterVisit_pages (f : Nat → Option (List Nat)) (k i lo hiK : Nat) (hki : k < i)
    (hs : ∀ p, (pageList f p).Pairwise (fun x y => x < y))
    (hk : ∀ p, k ∈ pageList f p ↔ lo ≤ p ∧ p ≤ hiK)
    (hi : ∀ p, i ∈ pageList f p → lo ≤ p) (n s : Nat) :
    noLaterVisit k i (visitList f (List.range' s n)) := by
  induction n generalizing s with
  | zero => simp [visitList, noLaterVisit]
  | succ n ih =>
    have hv : visitList f (List.range' s (n + 1))
        = pageList f s ++ visitList f (List.range' (s + 1) n) := by
      simp [visitList, List.range'_succ]
    by_cases hks : k ∈ pageList f s
    · rw [hv]
      exact noLaterVisit_append_of_sorted k i _ _ (hs s) hki hks
    · by_cases his : i ∈ pageList f s
      · apply noLaterVisit_of_not_mem
        intro hmem
        rcases (mem_visitList _ _ _).mp hmem with ⟨p, hp, hkp⟩
        rw [List.mem_range'_1] at hp
        have h1 := (hk p).mp hkp
        have h2 := hi s his
        exact hks ((hk s).mpr ⟨h2, by omega⟩)
      · rw [hv]
        exact noLaterVisit_append_of_not_mem k i _ _ his (ih (s + 1))

/-- C2, as stated, fails when a range runs past the end of the 30-bit window: the page of its
end then lies before the page of its start and the page loop visits nothing. The block
`[0x3FFFFFF0, 0x3FFFFFF4)`, built by `FinalizeBlock`, meets the range
`[0x3FFFFFF0, 0x40000010)` and is still live after `InvalidateICache(0x3FFFFFF0, 0x20)`.
Likewise the block `[0x3FFFFFF0, 0x40000010)` is put on no page by `FinalizeBlock` and is still
live after `InvalidateICache(0x3FFFFFF0, 4)`. -/
theorem invalidate_past_window_misses_block :
    (∃ c m, Built c m ∧
      c.blocks_.map (fun b => (b.origAddr_, b.origSize_)) = [(0x3FFFFFF0, 4)] ∧
      (∃ x : Nat, (0x3FFFFFF0 &&& 0x3FFFFFFF) ≤ x ∧ x < (0x3FFFFFF0 &&& 0x3FFFFFFF) + 0x20 ∧
        (0x3FFFFFF0 &&& 0x3FFFFFFF) ≤ x ∧ x < (0x3FFFFFF0 &&& 0x3FFFFFFF) + 4) ∧
      (c.InvalidateICache 0x3FFFFFF0 0x20 m).map
          (fun r => r.1.blocks_.map (fun b => b.origAddr_)) = some [0x3FFFFFF0]) ∧
    (∃ c m, Built c m ∧
      c.blocks_.map (fun b => (b.origAddr_, b.origSize_)) = [(0x3FFFFFF0, 0x20)] ∧
      (∃ x : Nat, (0x3FFFFFF0 &&& 0x3FFFFFFF) ≤ x ∧ x < (0x3FFFFFF0 &&& 0x3FFFFFFF) + 4 ∧
        (0x3FFFFFF0 &&& 0x3FFFFFFF) ≤ x ∧ x < (0x3FFFFFF0 &&& 0x3FFFFFFF) + 0x20) ∧
      (c.InvalidateICache 0x3FFFFFF0 4 m).map
          (fun r => r.1.blocks_.map (fun b => b.origAddr_)) = some [0x3FFFFFF0]) := by
  refine ⟨⟨_, _, Built.add _ _ 0x3FFFFFF0 [1] 4 _ _ (Built.empty (fun _ => 0x27BDFFF0))
    (addBlock_eq _ _ _ _ _), by simp, ⟨0x3FFFFFF0, by decide⟩, by decide⟩,
    ⟨_, _, Built.add _ _ 0x3FFFFFF0 [1] 0x20 _ _ (Built.empty (fun _ => 0x27BDFFF0))
    (addBlock_eq _ _ _ _ _), by simp, ⟨0x3FFFFFF0, by decide⟩, by decide⟩⟩

/-- C2 (amended): for every cache state built by `FinalizeBlock` calls and every
`(address, length)`, with `a = address & 0x3FFFFFFF`, every block that is live before the call
and whose masked guest range `[s', s'+size)` meets `[a, a+length)`, where both ranges end
below the end of the 30-bit window (`a + length < 2^30` and `s' + size < 2^30`), is destroyed
by `InvalidateICache`: its start address is 0 and its other fields are unchanged. When the
cache holds at most `2^24` blocks and the guest word at the block's start address was the
block's sentinel before the call, that word is the block's saved original word after it. -/
theorem invalidate_completeness (c : IRBlockCache) (m : Mem) (hB : Built c m)
    (address length i : Nat) (b : IRBlock) (hb : c.blocks_[i]? = some b)
    (hlive : b.origAddr_ ≠ 0)
    (hwa : (address &&& 0x3FFFFFFF) + length < 2 ^ 30)
    (hws : (b.origAddr_ &&& 0x3FFFFFFF) + b.origSize_ < 2 ^ 30)
    (hint : ∃ x : Nat, (address &&& 0x3FFFFFFF) ≤ x ∧ x < (address &&& 0x3FFFFFFF) + length ∧
      (b.origAddr_ &&& 0x3FFFFFFF) ≤ x ∧ x < (b.origAddr_ &&& 0x3FFFFFFF) + b.origSize_) :
    ∃ c2 m2, c.InvalidateICache address length m = some (c2, m2) ∧
      c2.blocks_[i]? = some { b with origAddr_ := 0 } ∧
      (c.blocks_.length ≤ 2 ^ 24 → Memory.ReadUnchecked_U32 m b.origAddr_ = emuhack i →
        Memory.ReadUnchecked_U32 m2 b.origAddr_ = b.origFirstOpcode_) := by
  have inv := builtInv_of_built c m hB
  have hvalid : ValidPageIndex c := by
    intro p L hL k hk
    exact inv.bound p k (by simpa [pageList, hL] using hk)
  obtain ⟨r, hr⟩ := invalidateBlocks_some address length _ c.blocks_ m
    (visitList_lt c hvalid
      (pagesFromTo (IRBlockCache.AddressToPage address)
        (IRBlockCache.AddressToPage ((address + length) % 2 ^ 32))))
  -- the block passes the overlap test
  have ho : b.OverlapsRange address length = true := by
    obtain ⟨x, h1, h2, h3, h4⟩ := hint
    unfold IRBlock.OverlapsRange
    simp only [Bool.and_eq_true, decide_eq_true_eq]
    rw [Nat.mod_eq_of_lt (by omega), Nat.mod_eq_of_lt (by omega)]
    omega
  -- the block is on a page of the range
  have hvis : i ∈ visitList c.byPage_
      (pagesFromTo (IRBlockCache.AddressToPage address)
        (IRBlockCache.AddressToPage ((address + length) % 2 ^ 32))) := by
    obtain ⟨x, h1, h2, h3, h4⟩ := hint
    rw [mem_visitList]
    refine ⟨x / 2 ^ 10, ?_, ?_⟩
    · rw [mem_pagesFromTo, addressToPage_eq, addressToPage_eq]
      rw [and_mask_eq_mod] at h1 h2 hwa
      omega
    · rw [inv.member i b _ hb]
      simp only [IRBlock.firstPage, IRBlock.lastPage, addressToPage_eq]
      rw [and_mask_eq_mod] at h3 h4 hws
      omega
  refine ⟨{ c with blocks_ := r.1 }, r.2, ?_, ?_, ?_⟩
  · rw [invalidateICache_eq, hr]
    rfl
  · exact invalidateBlocks_destroys _ _ _ _ _ _ hr i b hb (Or.inl ho) (Or.inl hvis)
  · intro hcap hm
    refine invalidateBlocks_restores _ _ _ _ _ _ hr hcap i b hb hlive ho hm hvis ?_
    intro k bk hbk hadr _ _ hki
    have hle : k ≤ i := inv.top hcap i k b bk hb hbk hadr.symm hm
    have hfp : bk.firstPage = b.firstPage := by
      simp only [IRBlock.firstPage, hadr]
    unfold pagesFromTo
    exact noLaterVisit_pages c.byPage_ k i b.firstPage bk.lastPage (by omega) inv.sorted
      (fun p => by rw [inv.member k bk p hbk, hfp])
      (fun p hp => ((inv.member i b p hb).mp hp).1) _ _

/-- Witness of C2: `InvalidateICache(0x08804004, 4)` on the cache holding the block
`[0x08804000, 0x08804008)`. -/
theorem invalidate_completeness_witness :
    Built builtCache builtMem ∧
      ∃ c2 m2, builtCache.InvalidateICache 0x08804004 4 builtMem = some (c2, m2) ∧
        c2.blocks_[0]? = some { (⟨[1], 0x08804000, 8, 0x27BDFFF0⟩ : IRBlock) with origAddr_ := 0 } ∧
        (builtCache.blocks_.length ≤ 2 ^ 24 →
          Memory.ReadUnchecked_U32 builtMem
              (⟨[1], 0x08804000, 8, 0x27BDFFF0⟩ : IRBlock).origAddr_ = emuhack 0 →
          Memory.ReadUnchecked_U32 m2 (⟨[1], 0x08804000, 8, 0x27BDFFF0⟩ : IRBlock).origAddr_
            = (⟨[1], 0x08804000, 8, 0x27BDFFF0⟩ : IRBlock).origFirstOpcode_) :=
  ⟨Built.add _ _ 0x08804000 [1] 8 _ _ (Built.empty (fun _ => 0x27BDFFF0)) (addBlock_eq _ _ _ _ _),
    invalidate_completeness builtCache builtMem
      (Built.add _ _ 0x08804000 [1] 8 _ _ (Built.empty (fun _ => 0x27BDFFF0))
        (addBlock_eq _ _ _ _ _))
      0x08804004 4 0 ⟨[1], 0x08804000, 8, 0x27BDFFF0⟩ rfl (by decide) (by decide) (by decide)
      ⟨0x08804004, by decide⟩⟩

/-! ## Words and their top byte -/

/-- The top byte of a word, as the dispatcher masks it. -/
theorem and_top_byte (x : Nat) : x &&& 0xFF000000 = x / 2 ^ 24 % 2 ^ 8 * 2 ^ 24 := by
  have h : x &&& 0xFF000000 = ((x >>> 24) &&& 0xFF) <<< 24 := by
    apply Nat.eq_of_testBit_eq
    intro k
    have hc : (0xFF000000 : Nat) = 0xFF <<< 24 := by decide
    rw [hc]
    simp only [Nat.testBit_and, Nat.testBit_shiftLeft, Nat.testBit_shiftRight]
    by_cases hk : 24 ≤ k
    · have : 24 + (k - 24) = k := by omega
      simp [hk, this]
    · simp [hk]
  rw [h, Nat.shiftLeft_eq, Nat.shiftRight_eq_div_pow]
  have h2 := Nat.and_pow_two_sub_one_eq_mod (x / 2 ^ 24) 8
  norm_num at h2 ⊢
  rw [h2]

theorem and_low_bits (x : Nat) : x &&& 0xFFFFFF = x % 2 ^ 24 := by
  have h := Nat.and_pow_two_sub_one_eq_mod x 24
  norm_num at h
  simpa using h

theorem emuhack_low {i : Nat} (hi : i < 2 ^ 24) : emuhack i &&& 0xFFFFFF = i := by
  rw [and_low_bits, emuhack_eq_add hi]
  omega

theorem emuhack_top {i : Nat} (hi : i < 2 ^ 24) :
    emuhack i &&& 0xFF000000 = MIPS_EMUHACK_OPCODE := by
  rw [and_top_byte, emuhack_eq_add hi]
  unfold MIPS_EMUHACK_OPCODE
  omega

/-! ## Destroy postcondition (C15) -/

/-- C15: for a block with non-zero start address `a`, every number `n` and every guest memory,
after `Destroy(n)` the start address is 0 and the other fields are as before; the guest word at
`a` is the saved original word if it was `MIPS_EMUHACK_OPCODE | n` (as a `u32`) before the call
and is unchanged otherwise; every other guest word is unchanged. -/
theorem destroy_postcondition (b : IRBlock) (n : Nat) (m : Mem) (ha : b.origAddr_ ≠ 0) :
    (b.Destroy n m).1 = { b with origAddr_ := 0 } ∧
      (Memory.ReadUnchecked_U32 m b.origAddr_ = emuhack n →
        Memory.ReadUnchecked_U32 (b.Destroy n m).2 b.origAddr_ = b.origFirstOpcode_) ∧
      (Memory.ReadUnchecked_U32 m b.origAddr_ ≠ emuhack n →
        Memory.ReadUnchecked_U32 (b.Destroy n m).2 b.origAddr_
          = Memory.ReadUnchecked_U32 m b.origAddr_) ∧
      (∀ x, x ≠ b.origAddr_ →
        Memory.ReadUnchecked_U32 (b.Destroy n m).2 x = Memory.ReadUnchecked_U32 m x) := by
  refine ⟨destroy_fst b n m, ?_, ?_, ?_⟩
  · intro h
    have h1 : m b.origAddr_ = emuhack n := h
    show (b.Destroy n m).2 b.origAddr_ = b.origFirstOpcode_
    rw [destroy_mem]
    simp [ha, h1]
  · intro h
    have h1 : m b.origAddr_ ≠ emuhack n := h
    show (b.Destroy n m).2 b.origAddr_ = m b.origAddr_
    rw [destroy_mem]
    simp [h1]
  · intro x hx
    show (b.Destroy n m).2 x = m x
    rw [destroy_mem]
    simp [hx]

/-- Witness of C15: block number 3 at `0x08804000` with its sentinel in guest memory. -/
theorem destroy_postcondition_witness :
    ((⟨[1], 0x08804000, 4, 0x27BDFFF0⟩ : IRBlock).Destroy 3
        (fun x => if x = 0x08804000 then 0x68000003 else 0)).1
        = { (⟨[1], 0x08804000, 4, 0x27BDFFF0⟩ : IRBlock) with origAddr_ := 0 } ∧
      (Memory.ReadUnchecked_U32 (fun x => if x = 0x08804000 then 0x68000003 else 0)
          (⟨[1], 0x08804000, 4, 0x27BDFFF0⟩ : IRBlock).origAddr_ = emuhack 3 →
        Memory.ReadUnchecked_U32
          ((⟨[1], 0x08804000, 4, 0x27BDFFF0⟩ : IRBlock).Destroy 3
            (fun x => if x = 0x08804000 then 0x68000003 else 0)).2
          (⟨[1], 0x08804000, 4, 0x27BDFFF0⟩ : IRBlock).origAddr_
          = (⟨[1], 0x08804000, 4, 0x27BDFFF0⟩ : IRBlock).origFirstOpcode_) ∧
      (Memory.ReadUnchecked_U32 (fun x => if x = 0x08804000 then 0x68000003 else 0)
          (⟨[1], 0x08804000, 4, 0x27BDFFF0⟩ : IRBlock).origAddr_ ≠ emuhack 3 →
        Memory.ReadUnchecked_U32
          ((⟨[1], 0x08804000, 4, 0x27BDFFF0⟩ : IRBlock).Destroy 3
            (fun x => if x = 0x08804000 then 0x68000003 else 0)).2
          (⟨[1], 0x08804000, 4, 0x27BDFFF0⟩ : IRBlock).origAddr_
          = Memory.ReadUnchecked_U32 (fun x => if x = 0x08804000 then 0x68000003 else 0)
              (⟨[1], 0x08804000, 4, 0x27BDFFF0⟩ : IRBlock).origAddr_) ∧
      (∀ x, x ≠ (⟨[1], 0x08804000, 4, 0x27BDFFF0⟩ : IRBlock).origAddr_ →
        Memory.ReadUnchecked_U32
          ((⟨[1], 0x08804000, 4, 0x27BDFFF0⟩ : IRBlock).Destroy 3
            (fun x => if x = 0x08804000 then 0x68000003 else 0)).2 x
          = Memory.ReadUnchecked_U32 (fun x => if x = 0x08804000 then 0x68000003 else 0) x) :=
  destroy_postcondition ⟨[1], 0x08804000, 4, 0x27BDFFF0⟩ 3
    (fun x => if x = 0x08804000 then 0x68000003 else 0) (by decide)

/-! ## Mirror invariance (C16) -/

/-- C16: when `a` and `b` agree on their low 30 bits, `OverlapsRange(a, length)` and
`OverlapsRange(b, length)` give the same answer for every block and every length; the answer
is also the same for two blocks that differ only in start addresses with the same low 30 bits;
and `AddressToPage` gives the same page for `a` and `b`. -/
theorem overlapsRange_mirror_invariant (a b : Nat) (hab : a &&& 0x3FFFFFFF = b &&& 0x3FFFFFFF) :
    (∀ (blk : IRBlock) (length : Nat),
        blk.OverlapsRange a length = blk.OverlapsRange b length) ∧
      (∀ (blk : IRBlock) (address length : Nat),
        ({ blk with origAddr_ := a } : IRBlock).OverlapsRange address length
          = ({ blk with origAddr_ := b } : IRBlock).OverlapsRange address length) ∧
      IRBlockCache.AddressToPage a = IRBlockCache.AddressToPage b := by
  refine ⟨?_, ?_, ?_⟩
  · intro blk length
    simp only [IRBlock.OverlapsRange, hab]
  · intro blk address length
    simp only [IRBlock.OverlapsRange, hab]
  · simp only [IRBlockCache.AddressToPage, hab]

/-- Witness of C16: `0x88804000` and `0x08804000` are mirrors of each other. -/
theorem overlapsRange_mirror_invariant_witness :
    (∀ (blk : IRBlock) (length : Nat),
        blk.OverlapsRange 0x88804000 length = blk.OverlapsRange 0x08804000 length) ∧
      (∀ (blk : IRBlock) (address length : Nat),
        ({ blk with origAddr_ := 0x88804000 } : IRBlock).OverlapsRange address length
          = ({ blk with origAddr_ := 0x08804000 } : IRBlock).OverlapsRange address length) ∧
      IRBlockCache.AddressToPage 0x88804000 = IRBlockCache.AddressToPage 0x08804000 :=
  overlapsRange_mirror_invariant 0x88804000 0x08804000 (by decide)

/-! ## Original-opcode recovery (C12) -/

/-- C12: when block `i < 2^24` of the cache is finalized, `GetOriginalOp` applied to the guest
word then stored at the block's start address, which is the sentinel `MIPS_EMUHACK_OPCODE | i`,
returns the guest word that was stored there immediately before; and for a word whose low 24
bits are not the number of a block of the cache, `GetOriginalOp` returns that word
unchanged. -/
theorem getOriginalOp_after_finalize {σ : Type} (j : IRJit σ) (m : Mem) (i : Nat) (b : IRBlock)
    (hi : i < 2 ^ 24) (hb : j.blocks_.blocks_[i]? = some b) :
    (∃ c2 m2, j.blocks_.FinalizeBlock i m = some (c2, m2) ∧
        Memory.ReadUnchecked_U32 m2 b.origAddr_ = MIPS_EMUHACK_OPCODE ||| i ∧
        IRJit.GetOriginalOp { j with blocks_ := c2 } (Memory.ReadUnchecked_U32 m2 b.origAddr_)
          = Memory.ReadUnchecked_U32 m b.origAddr_) ∧
      (∀ op : Nat, j.blocks_.blocks_.length ≤ op &&& 0xFFFFFF → j.GetOriginalOp op = op) := by
  constructor
  · have hlt : i < j.blocks_.blocks_.length := (List.getElem?_eq_some.mp hb).1
    have hF : j.blocks_.FinalizeBlock i m =
        some ({ blocks_ := j.blocks_.blocks_.set i (b.Finalize i m).1,
                byPage_ := pushPages j.blocks_.byPage_ i
                  (pagesFromTo (IRBlockCache.AddressToPage (b.Finalize i m).1.GetRange.1)
                    (IRBlockCache.AddressToPage
                      (((b.Finalize i m).1.GetRange.1 + (b.Finalize i m).1.GetRange.2)
                        % 2 ^ 32))) },
              (b.Finalize i m).2) := by
      simp only [IRBlockCache.FinalizeBlock, hb]
    refine ⟨_, _, hF, ?_, ?_⟩
    · simp [IRBlock.Finalize, Memory.ReadUnchecked_U32, Memory.Write_Opcode_JIT,
        emuhack_eq_of_lt hi]
    · simp only [IRBlock.Finalize, Memory.ReadUnchecked_U32, Memory.Read_Opcode_JIT,
        write_same, IRJit.GetOriginalOp, IRBlockCache.GetBlock, emuhack_low hi]
      rw [List.getElem?_set_self hlt]
      rfl
  · intro op hop
    simp [IRJit.GetOriginalOp, IRBlockCache.GetBlock, List.getElem?_eq_none hop]

/-- Witness of C12: block 0 at `0x08804000` over the word `0x27BDFFF0`. -/
theorem getOriginalOp_after_finalize_witness :
    (∃ c2 m2, oneBlockJit.blocks_.FinalizeBlock 0 (fun _ => 0x27BDFFF0) = some (c2, m2) ∧
        Memory.ReadUnchecked_U32 m2 (⟨[7], 0x08800000, 4, 0x27BDFFF0⟩ : IRBlock).origAddr_
          = MIPS_EMUHACK_OPCODE ||| 0 ∧
        IRJit.GetOriginalOp { oneBlockJit with blocks_ := c2 }
            (Memory.ReadUnchecked_U32 m2 (⟨[7], 0x08800000, 4, 0x27BDFFF0⟩ : IRBlock).origAddr_)
          = Memory.ReadUnchecked_U32 (fun _ => 0x27BDFFF0)
              (⟨[7], 0x08800000, 4, 0x27BDFFF0⟩ : IRBlock).origAddr_) ∧
      (∀ op : Nat, oneBlockJit.blocks_.blocks_.length ≤ op &&& 0xFFFFFF →
        oneBlockJit.GetOriginalOp op = op) :=
  getOriginalOp_after_finalize oneBlockJit (fun _ => 0x27BDFFF0) 0 ⟨[7], 0x08800000, 4, 0x27BDFFF0⟩
    (by norm_num) rfl

/-! ## The block loops as guarded writes -/

/-- A word that no visit can write is left alone by the loop. -/
theorem memLoop_frame {α : Type} (addr : α → Nat) (cond : Nat → α → Nat → Bool)
    (val : Nat → α → Nat) (n : Nat) (as : List α) (m : Mem) (x : Nat)
    (hx : ∀ a ∈ as, ∀ i w, cond i a w = true → addr a ≠ x) :
    memLoop addr cond val n as m x = m x := by
  induction as generalizing n m with
  | nil => rfl
  | cons a as ih =>
    rw [memLoop, ih _ _ (fun a2 h2 => hx a2 (by simp [h2]))]
    split
    · next hc => exact write_other _ _ _ _ (Ne.symm (hx a (by simp) n _ hc))
    · rfl

/-- The loop at the address of entry `k`, when no other entry that can write has that
address: only the visit of entry `k` counts. -/
theorem memLoop_at {α : Type} (addr : α → Nat) (cond : Nat → α → Nat → Bool)
    (val : Nat → α → Nat) (n : Nat) (as : List α) (m : Mem) (k : Nat) (a : α)
    (ha : as[k]? = some a)
    (hd : ∀ (k2 : Nat) (a2 : α), as[k2]? = some a2 → k2 ≠ k →
      ∀ i w, cond i a2 w = true → addr a2 ≠ addr a) :
    memLoop addr cond val n as m (addr a)
      = if cond (n + k) a (m (addr a)) then val (n + k) a else m (addr a) := by
  induction as generalizing n m k with
  | nil => simp at ha
  | cons a0 as ih =>
    cases k with
    | zero =>
      simp at ha
      subst ha
      rw [memLoop, memLoop_frame]
      · by_cases hc : cond n a0 (m (addr a0)) = true
        · simp [hc, write_same]
        · simp [hc]
      · intro a2 h2 i w hc
        obtain ⟨k2, hk2⟩ := List.getElem?_of_mem h2
        exact hd (k2 + 1) a2 (by simpa using hk2) (by omega) i w hc
    | succ k =>
      simp at ha
      rw [memLoop, ih (n + 1) _ k ha
        (fun k2 a2 h2 hne => hd (k2 + 1) a2 (by simpa using h2) (by omega))]
      have hm : (if cond n a0 (m (addr a0)) then Memory.Write_Opcode_JIT m (addr a0) (val n a0)
          else m) (addr a) = m (addr a) := by
        split
        · next hc =>
          exact write_other _ _ _ _ (Ne.symm (hd 0 a0 (by simp) (by omega) n _ hc))
        · rfl
      rw [hm, show n + 1 + k = n + (k + 1) by omega]

theorem liftCond_iff (i : Nat) (b : IRBlock) (w : Nat) :
    liftCond i b w = true ↔ b.origAddr_ ≠ 0 ∧ w = emuhack i := by
  simp [liftCond]

theorem destroy_snd_eq (b : IRBlock) (n : Nat) (m : Mem) :
    (b.Destroy n m).2
      = if liftCond n b (m b.origAddr_) then
          Memory.Write_Opcode_JIT m b.origAddr_ b.origFirstOpcode_ else m := by
  unfold IRBlock.Destroy Memory.ReadUnchecked_U32
  by_cases h0 : b.origAddr_ = 0
  · have hc : liftCond n b (m b.origAddr_) = false := by simp [liftCond, h0]
    simp only [hc, Bool.false_eq_true, if_false]
    simp [h0]
  · by_cases h1 : m b.origAddr_ = emuhack n
    · have hc : liftCond n b (m b.origAddr_) = true := by simp [liftCond, h0, h1]
      simp only [hc, if_true]
      simp [h0, h1]
    · have hc : liftCond n b (m b.origAddr_) = false := by simp [liftCond, h1]
      simp only [hc, Bool.false_eq_true, if_false]
      simp [h0, h1]

theorem destroyFrom_mem (n : Nat) (bs : List IRBlock) (m : Mem) :
    (destroyFrom n bs m).2
      = memLoop (fun b => b.origAddr_) liftCond (fun _ b => b.origFirstOpcode_) n bs m := by
  induction bs generalizing n m with
  | nil => rfl
  | cons b bs ih =>
    rw [destroyFrom, memLoop]
    simp only
    rw [ih, destroy_snd_eq]

theorem restoreFrom_fst (n : Nat) (bs : List IRBlock) (saved : List Nat) (m : Mem) :
    (restoreFrom n bs saved m).1 = bs := by
  induction bs generalizing n saved m with
  | nil => cases saved <;> rfl
  | cons b bs ih =>
    cases saved with
    | nil => rfl
    | cons s saved =>
      rw [restoreFrom]
      split
      · next hc =>
        simp only [Bool.and_eq_true, IRBlock.HasOriginalFirstOp, Memory.ReadUnchecked_U32,
          beq_iff_eq] at hc
        simp only [ih]
        congr 1
        cases b
        simp_all [IRBlock.Finalize, Memory.Read_Opcode_JIT]
      · simp only [ih]

theorem restoreSaved_cache (c : IRBlockCache) (saved : List Nat) (m : Mem) :
    (c.RestoreSavedEmuHackOps saved m).2.1 = c := by
  unfold IRBlockCache.RestoreSavedEmuHackOps
  split
  · rfl
  · simp only [restoreFrom_fst]

theorem validPageIndex_of_bound (c : IRBlockCache)
    (h : ∀ p, ∀ j ∈ pageList c.byPage_ p, j < c.blocks_.length) : ValidPageIndex c := by
  intro p L hL k hk
  exact h p k (by simpa [pageList, hL] using hk)

theorem mem_pageList_iff (byPage : Nat → Option (List Nat)) (p i : Nat) :
    i ∈ pageList byPage p ↔ ∃ L, byPage p = some L ∧ i ∈ L := by
  unfold pageList
  cases byPage p <;> simp

/-- `InvalidateICache` keeps the page index and the number of blocks, and a block that is
live afterwards is the block it was before. -/
theorem invalidateICache_shape (c : IRBlockCache) (address length : Nat) (m : Mem)
    (c2 : IRBlockCache) (m2 : Mem) (h : c.InvalidateICache address length m = some (c2, m2)) :
    c2.byPage_ = c.byPage_ ∧ DestroyedFrom address length c.blocks_ c2.blocks_ ∧
      ∃ r, invalidateBlocks address length
          (visitList c.byPage_
            (pagesFromTo (IRBlockCache.AddressToPage address)
              (IRBlockCache.AddressToPage ((address + length) % 2 ^ 32))))
          c.blocks_ m = some r ∧ c2.blocks_ = r.1 ∧ m2 = r.2 := by
  rw [invalidateICache_eq] at h
  generalize visitList c.byPage_
      (pagesFromTo (IRBlockCache.AddressToPage address)
        (IRBlockCache.AddressToPage ((address + length) % 2 ^ 32))) = L at h ⊢
  cases hr : invalidateBlocks address length L c.blocks_ m with
  | none =>
    rw [hr] at h
    cases h
  | some r =>
    rw [hr] at h
    simp only [Option.map_some', Option.some.injEq, Prod.mk.injEq] at h
    obtain ⟨hc, hm⟩ := h
    subst hc hm
    exact ⟨rfl, invalidateBlocks_destroyedFrom _ _ _ _ _ _ hr, r, rfl, rfl, rfl⟩

theorem live_of_destroyedFrom {a l : Nat} {bs bs2 : List IRBlock}
    (h : DestroyedFrom a l bs bs2) (i : Nat) (b2 : IRBlock) (hb : bs2[i]? = some b2)
    (hlive : b2.origAddr_ ≠ 0) : bs[i]? = some b2 := by
  have hi : i < bs.length := h.1 ▸ (List.getElem?_eq_some.mp hb).1
  rcases h.2 i bs[i] (List.getElem?_eq_getElem hi) with h1 | ⟨_, h1⟩
  · rw [List.getElem?_eq_getElem hi, ← h1, hb]
  · rw [hb] at h1
    cases h1
    exact absurd rfl hlive

theorem indexInv_of_reach (c : IRBlockCache) (m : Mem) (h : CacheReach c m) : IndexInv c := by
  induction h with
  | empty m =>
    exact ⟨fun p j hj => by simp [pageList] at hj, fun i b p hb => by simp at hb⟩
  | add c m X inst size c2 m2 _ hadd ih =>
    rw [addBlock_eq] at hadd
    simp only [Option.some.injEq, Prod.mk.injEq] at hadd
    obtain ⟨hc, _⟩ := hadd
    subst hc
    have hpl : ∀ p, pageList (pushPages c.byPage_ c.blocks_.length
          (pagesFromTo (IRBlockCache.AddressToPage X)
            (IRBlockCache.AddressToPage ((X + size) % 2 ^ 32)))) p
        = pageList c.byPage_ p ++
          (if IRBlockCache.AddressToPage X ≤ p ∧
              p ≤ IRBlockCache.AddressToPage ((X + size) % 2 ^ 32)
            then [c.blocks_.length] else []) := by
      intro p
      rw [pageList_pushPages _ _ _ _ (nodup_pagesFromTo _ _)]
      simp only [mem_pagesFromTo]
    refine ⟨?_, ?_⟩
    · intro p j hj
      simp only [hpl, List.mem_append] at hj
      simp only [List.length_append, List.length_singleton]
      rcases hj with hj | hj
      · have := ih.bound p j hj
        omega
      · split at hj
        · simp at hj
          omega
        · simp at hj
    · intro i b p hb hlive h1 h2
      simp only [hpl, List.mem_append]
      by_cases hi : i < c.blocks_.length
      · rw [List.getElem?_append_left hi] at hb
        exact Or.inl (ih.covered i b p hb hlive h1 h2)
      · have hi2 : i < c.blocks_.length + 1 := by
          have := (List.getElem?_eq_some.mp hb).1
          simpa using this
        have hie : i = c.blocks_.length := by omega
        subst hie
        rw [List.getElem?_concat_length] at hb
        cases hb
        right
        rw [if_pos ⟨h1, h2⟩]
        simp
  | invalidate c m a l c2 m2 _ hinv ih =>
    obtain ⟨hpage, hd, _⟩ := invalidateICache_shape c a l m c2 m2 hinv
    refine ⟨?_, ?_⟩
    · intro p j hj
      rw [hpage] at hj
      rw [hd.1]
      exact ih.bound p j hj
    · intro i b p hb hlive h1 h2
      rw [hpage]
      exact ih.covered i b p (live_of_destroyedFrom hd i b hb hlive) hlive h1 h2
  | clear c m _ _ =>
    exact ⟨fun p j hj => by simp [IRBlockCache.Clear, pageList] at hj,
      fun i b p hb => by simp [IRBlockCache.Clear] at hb⟩
  | save c m _ ih => exact ih
  | restore c m saved _ ih =>
    rw [restoreSaved_cache]
    exact ih

/-- C19: in every state reachable from the empty cache by allocate, populate and
`FinalizeBlock`, by `InvalidateICache` and by `Clear` (and also by `SaveAndClearEmuHackOps` and
`RestoreSavedEmuHackOps`), every block number in a page-index list is smaller than the number
of blocks, and `InvalidateICache` on any range and guest memory returns: none of its lookups
`blocks_[i]` is out of range. -/
theorem page_index_entries_valid (c : IRBlockCache) (m : Mem) (h : CacheReach c m) :
    (∀ (p : Nat) (L : List Nat), c.byPage_ p = some L → ∀ k ∈ L, k < c.blocks_.length) ∧
      (∀ (address length : Nat) (m2 : Mem),
        ∃ r, c.InvalidateICache address length m2 = some r) := by
  have hv := validPageIndex_of_bound c (indexInv_of_reach c m h).bound
  refine ⟨hv, fun address length m2 => ?_⟩
  obtain ⟨r, hr⟩ := invalidateBlocks_some address length _ c.blocks_ m2
    (visitList_lt c hv
      (pagesFromTo (IRBlockCache.AddressToPage address)
        (IRBlockCache.AddressToPage ((address + length) % 2 ^ 32))))
  exact ⟨_, by rw [invalidateICache_eq, hr]; rfl⟩

/-- Witness of C19: the cache after one block is compiled at `0x08804000`. -/
theorem page_index_entries_valid_witness :
    (∀ (p : Nat) (L : List Nat), builtCache.byPage_ p = some L →
        ∀ k ∈ L, k < builtCache.blocks_.length) ∧
      (∀ (address length : Nat) (m2 : Mem),
        ∃ r, builtCache.InvalidateICache address length m2 = some r) :=
  page_index_entries_valid builtCache builtMem
    (CacheReach.add _ _ 0x08804000 [1] 8 _ _ (CacheReach.empty (fun _ => 0x27BDFFF0))
      (addBlock_eq _ _ _ _ _))

/-- C14: in every state reachable from the empty cache by `FinalizeBlock` (after allocate and
populate), `InvalidateICache`, `SaveAndClearEmuHackOps` and `RestoreSavedEmuHackOps` (and also
by `Clear`), every live block `i` with start address `s` and byte length `n` is in the
page-index list of every page `p` with `AddressToPage(s) <= p <= AddressToPage(s + n)`, the sum
taken as a `u32`. -/
theorem page_index_covers_live_blocks (c : IRBlockCache) (m : Mem) (h : CacheReach c m)
    (i : Nat) (b : IRBlock) (hb : c.blocks_[i]? = some b) (hlive : b.origAddr_ ≠ 0) (p : Nat)
    (h1 : IRBlockCache.AddressToPage b.origAddr_ ≤ p)
    (h2 : p ≤ IRBlockCache.AddressToPage ((b.origAddr_ + b.origSize_) % 2 ^ 32)) :
    ∃ L, c.byPage_ p = some L ∧ i ∈ L :=
  (mem_pageList_iff _ _ _).mp ((indexInv_of_reach c m h).covered i b p hb hlive h1 h2)

/-- Witness of C14: block 0 of the cache after one block is compiled at `0x08804000` is listed
on page `0x22010`. -/
theorem page_index_covers_live_blocks_witness :
    ∃ L, builtCache.byPage_ 0x22010 = some L ∧ 0 ∈ L :=
  page_index_covers_live_blocks builtCache builtMem
    (CacheReach.add _ _ 0x08804000 [1] 8 _ _ (CacheReach.empty (fun _ => 0x27BDFFF0))
      (addBlock_eq _ _ _ _ _))
    0 ⟨[1], 0x08804000, 8, 0x27BDFFF0⟩ rfl (by decide) 0x22010 (by decide) (by decide)

/-! ## The block guard in reachable states (C13) -/

theorem sentInv_distinct (bs : List IRBlock) (m : Mem) (h : SentInv bs m)
    (hcap : bs.length ≤ 2 ^ 24) (i k : Nat) (bi bk : IRBlock) (hi : bs[i]? = some bi)
    (hk : bs[k]? = some bk) (hlive : bi.origAddr_ ≠ 0) (hadr : bi.origAddr_ = bk.origAddr_) :
    i = k := by
  have h1 := h.holds i bi hi hlive
  have h2 := h.holds k bk hk (hadr ▸ hlive)
  rw [hadr, h2] at h1
  have hilt : i < bs.length := (List.getElem?_eq_some.mp hi).1
  have hklt : k < bs.length := (List.getElem?_eq_some.mp hk).1
  exact (emuhack_inj (by omega) (by omega) h1).symm

theorem sentInv_destroy_step (bs : List IRBlock) (m : Mem) (k : Nat) (bk : IRBlock)
    (h : SentInv bs m) (hcap : bs.length ≤ 2 ^ 24) (hk : bs[k]? = some bk) :
    SentInv (bs.set k { bk with origAddr_ := 0 }) (bk.Destroy k m).2 := by
  have hklt : k < bs.length := (List.getElem?_eq_some.mp hk).1
  have hold : ∀ (i : Nat) (b : IRBlock),
      (bs.set k { bk with origAddr_ := 0 })[i]? = some b → b.origAddr_ ≠ 0 →
      i ≠ k ∧ bs[i]? = some b := by
    intro i b hb hlive
    by_cases hik : k = i
    · subst hik
      rw [List.getElem?_set_self hklt] at hb
      cases hb
      exact absurd rfl hlive
    · rw [List.getElem?_set_ne hik] at hb
      exact ⟨Ne.symm hik, hb⟩
  refine ⟨?_, ?_, ?_⟩
  · intro i b hb hlive
    obtain ⟨hne, hb2⟩ := hold i b hb hlive
    rw [destroy_mem]
    split
    · next hc =>
      exact absurd (sentInv_distinct bs m h hcap i k b bk hb2 hk hlive hc.2.2) hne
    · exact h.holds i b hb2 hlive
  · intro i b hb hlive
    exact h.clean i b (hold i b hb hlive).2 hlive
  · intro x hx
    rw [destroy_mem] at hx ⊢
    split at hx
    · next hc => exact absurd hx (h.clean k bk hk hc.1)
    · next hc =>
      rw [if_neg hc]
      obtain ⟨i, b, hb, hadr, hx0, hmx⟩ := h.named x hx
      have hik : k ≠ i := by
        intro hki
        subst hki
        rw [hk] at hb
        cases hb
        exact hc ⟨hadr ▸ hx0, hadr ▸ hmx, hadr.symm⟩
      exact ⟨i, b, by rw [List.getElem?_set_ne hik]; exact hb, hadr, hx0, hmx⟩

theorem sentInv_invalidateBlocks (a l : Nat) (L : List Nat) (bs : List IRBlock) (m : Mem)
    (r : List IRBlock × Mem) (h : invalidateBlocks a l L bs m = some r)
    (hinv : SentInv bs m) (hcap : bs.length ≤ 2 ^ 24) : SentInv r.1 r.2 := by
  induction L generalizing bs m with
  | nil =>
    simp only [invalidateBlocks, Option.some.injEq] at h
    subst h
    exact hinv
  | cons k rest ih =>
    simp only [invalidateBlocks] at h
    cases hk : bs[k]? with
    | none => simp [hk] at h
    | some bk =>
      simp only [hk] at h
      by_cases ho : bk.OverlapsRange a l = true
      · rw [if_pos ho, destroy_fst] at h
        exact ih _ _ h (sentInv_destroy_step bs m k bk hinv hcap hk) (by simpa using hcap)
      · rw [if_neg ho] at h
        exact ih _ _ h hinv hcap

/-- After `Clear` no guest word has the marker in its top byte. -/
theorem sentInv_clear (bs : List IRBlock) (m : Mem) (h : SentInv bs m)
    (hcap : bs.length ≤ 2 ^ 24) (x : Nat) :
    (destroyFrom 0 bs m).2 x &&& 0xFF000000 ≠ MIPS_EMUHACK_OPCODE := by
  rw [destroyFrom_mem]
  by_cases hex : ∃ (i : Nat) (b : IRBlock), bs[i]? = some b ∧ b.origAddr_ ≠ 0 ∧ b.origAddr_ = x
  · obtain ⟨i, b, hb, hlive, hadr⟩ := hex
    subst hadr
    have := memLoop_at (fun b : IRBlock => b.origAddr_) liftCond (fun _ b => b.origFirstOpcode_)
      0 bs m i b hb (by
        intro k2 b2 hb2 hne j w hc hadr
        exact hne (sentInv_distinct bs m h hcap k2 i b2 b hb2 hb
          ((liftCond_iff j b2 w).mp hc).1 hadr))
    simp only [Nat.zero_add] at this
    rw [this, if_pos ((liftCond_iff _ _ _).mpr ⟨hlive, h.holds i b hb hlive⟩)]
    exact h.clean i b hb hlive
  · rw [memLoop_frame]
    · intro hx
      obtain ⟨i, b, hb, hadr, hx0, _⟩ := h.named x hx
      exact hex ⟨i, b, hb, hadr ▸ hx0, hadr⟩
    · intro b hb i w hc hadr
      obtain ⟨k, hk⟩ := List.getElem?_of_mem hb
      exact hex ⟨k, b, hk, ((liftCond_iff i b w).mp hc).1, hadr⟩

theorem sentInv_empty (m : Mem) (hm : ∀ x, m x &&& 0xFF000000 ≠ MIPS_EMUHACK_OPCODE) :
    SentInv [] m :=
  ⟨fun i b hb => by simp at hb, fun i b hb => by simp at hb, fun x hx => absurd hx (hm x)⟩

theorem sentInv_add (bs : List IRBlock) (m : Mem) (X : Nat) (inst : List IRInst) (size : Nat)
    (h : SentInv bs m) (hcap : bs.length < 2 ^ 24) (hX : X ≠ 0)
    (hw : m X &&& 0xFF000000 ≠ MIPS_EMUHACK_OPCODE) :
    SentInv (bs ++ [⟨inst, X, size, m X⟩]) (Memory.Write_Opcode_JIT m X (emuhack bs.length)) := by
  have hsplit : ∀ (i : Nat) (b : IRBlock),
      (bs ++ [(⟨inst, X, size, m X⟩ : IRBlock)])[i]? = some b →
      (i < bs.length ∧ bs[i]? = some b) ∨ (i = bs.length ∧ b = ⟨inst, X, size, m X⟩) := by
    intro i b hb
    by_cases hi : i < bs.length
    · rw [List.getElem?_append_left hi] at hb
      exact Or.inl ⟨hi, hb⟩
    · have hi2 : i < bs.length + 1 := by
        have := (List.getElem?_eq_some.mp hb).1
        simpa using this
      have hie : i = bs.length := by omega
      subst hie
      rw [List.getElem?_concat_length] at hb
      cases hb
      exact Or.inr ⟨rfl, rfl⟩
  have hfree : ∀ (i : Nat) (b : IRBlock), bs[i]? = some b → b.origAddr_ ≠ 0 →
      b.origAddr_ ≠ X := by
    intro i b hb hlive hadr
    have h1 := h.holds i b hb hlive
    have hilt : i < bs.length := (List.getElem?_eq_some.mp hb).1
    rw [hadr] at h1
    rw [h1, emuhack_top (by omega)] at hw
    exact hw rfl
  refine ⟨?_, ?_, ?_⟩
  · intro i b hb hlive
    rcases hsplit i b hb with ⟨_, hb2⟩ | ⟨hie, hbe⟩
    · rw [write_other _ _ _ _ (hfree i b hb2 hlive)]
      exact h.holds i b hb2 hlive
    · subst hie hbe
      exact write_same _ _ _
  · intro i b hb hlive
    rcases hsplit i b hb with ⟨_, hb2⟩ | ⟨_, hbe⟩
    · exact h.clean i b hb2 hlive
    · subst hbe
      exact hw
  · intro x hx
    by_cases hxX : x = X
    · subst hxX
      exact ⟨bs.length, _, List.getElem?_concat_length _ _, rfl, hX, write_same _ _ _⟩
    · rw [write_other _ _ _ _ hxX] at hx ⊢
      obtain ⟨i, b, hb, hadr, hx0, hmx⟩ := h.named x hx
      have hilt : i < bs.length := (List.getElem?_eq_some.mp hb).1
      exact ⟨i, b, by rw [List.getElem?_append_left hilt]; exact hb, hadr, hx0, hmx⟩

theorem sentInv_compile {σ : Type} (fe : IRFrontend σ) (fuel : Nat) (j : IRJit σ) (m : Mem)
    (X : Nat) (j2 : IRJit σ) (m2 : Mem) (h : IRJit.Compile fe fuel j m X = some (j2, m2))
    (hinv : SentInv j.blocks_.blocks_ m) (hcap : j.blocks_.blocks_.length < 2 ^ 24)
    (hX : X ≠ 0) (hw : m X &&& 0xFF000000 ≠ MIPS_EMUHACK_OPCODE) :
    SentInv j2.blocks_.blocks_ m2 ∧
      j2.blocks_.blocks_.length ≤ j.blocks_.blocks_.length + 1 := by
  induction fuel generalizing j m with
  | zero => simp [IRJit.Compile] at h
  | succ fuel ih =>
    have hadd := sentInv_add j.blocks_.blocks_ m X (fe.DoJit j.frontend_ m X).1.1
      (fe.DoJit j.frontend_ m X).1.2 hinv hcap hX hw
    rw [IRJit.Compile, compilePass_eq] at h
    simp only at h
    by_cases hk : (fe.CheckRounding (fe.DoJit j.frontend_ m X).2 X).1 = true
    · rw [if_pos hk] at h
      have hclean := sentInv_clear _ _ hadd (by simp; omega)
      have := ih _ _ h (sentInv_empty _ hclean) (by simp [IRJit.ClearCache, IRBlockCache.Clear])
        (hclean X)
      refine ⟨this.1, ?_⟩
      have h2 := this.2
      simp only [IRJit.ClearCache, IRBlockCache.Clear, List.length_nil] at h2
      omega
    · rw [if_neg hk] at h
      simp only [Option.some.injEq, Prod.mk.injEq] at h
      obtain ⟨hj, hm⟩ := h
      subst hj hm
      exact ⟨hadd, by simp⟩

theorem sentInv_of_reach {σ : Type} (fe : IRFrontend σ) (k : Nat) (j : IRJit σ) (m : Mem)
    (h : DispatchReach fe k j m) (hk : k ≤ 2 ^ 24) :
    SentInv j.blocks_.blocks_ m ∧ j.blocks_.blocks_.length ≤ k := by
  induction h with
  | init f0 m hm => exact ⟨sentInv_empty m hm, by simp⟩
  | compile k j m X fuel j2 m2 _ hX hw hc ih =>
    obtain ⟨hinv, hlen⟩ := ih (by omega)
    have := sentInv_compile fe fuel j m X j2 m2 hc hinv (by omega) hX hw
    exact ⟨this.1, by omega⟩
  | invalidate k j m a l j2 m2 _ hinv ih =>
    obtain ⟨hs, hlen⟩ := ih (by omega)
    unfold IRJit.InvalidateCacheAt at hinv
    cases hr : j.blocks_.InvalidateICache a l m with
    | none => simp [hr] at hinv
    | some r =>
      simp only [hr, Option.some.injEq, Prod.mk.injEq] at hinv
      obtain ⟨hj, hm⟩ := hinv
      subst hj hm
      obtain ⟨_, hd, r2, hr2, hb, hm2⟩ := invalidateICache_shape j.blocks_ a l m r.1 r.2 hr
      refine ⟨?_, ?_⟩
      · show SentInv r.1.blocks_ r.2
        rw [hb, hm2]
        exact sentInv_invalidateBlocks _ _ _ _ _ _ hr2 hs (by omega)
      · show r.1.blocks_.length ≤ k + 1
        rw [hd.1]
        omega
  | clear k j m _ ih =>
    obtain ⟨hs, hlen⟩ := ih (by omega)
    exact ⟨sentInv_empty _ (sentInv_clear _ _ hs (by omega)),
      by simp [IRJit.ClearCache, IRBlockCache.Clear]⟩

/-- C20: in every state reached from the empty cache and a guest memory without a marker
word by fewer than `2^24` steps, each of them `Compile` at a non-zero address whose guest word
does not have the marker in its top byte, `InvalidateCacheAt` or `ClearCache`, every guest word
whose top byte is the marker has in its low 24 bits the number of an existing block that is
live and starts at the address of that word: the lookup `GetBlock` of the dispatcher's
sentinel branch finds a block. -/
theorem sentinel_names_live_block {σ : Type} (fe : IRFrontend σ) (k : Nat) (j : IRJit σ)
    (m : Mem) (h : DispatchReach fe k j m) (hk : k < 2 ^ 24) (x : Nat)
    (hx : Memory.ReadUnchecked_U32 m x &&& 0xFF000000 = MIPS_EMUHACK_OPCODE) :
    ∃ b, j.blocks_.GetBlock (Memory.ReadUnchecked_U32 m x &&& 0xFFFFFF) = some b ∧
      b.origAddr_ = x ∧ b.origAddr_ ≠ 0 := by
  obtain ⟨hinv, hlen⟩ := sentInv_of_reach fe k j m h (by omega)
  obtain ⟨i, b, hb, hadr, hx0, hmx⟩ := hinv.named x hx
  have hilt : i < j.blocks_.blocks_.length := (List.getElem?_eq_some.mp hb).1
  refine ⟨b, ?_, hadr, hadr ▸ hx0⟩
  simp only [Memory.ReadUnchecked_U32, IRBlockCache.GetBlock]
  rw [hmx, emuhack_low (by omega)]
  exact hb

/-- Witness of C20: the state after `Compile(0x08804000)` in the empty cache, and the word at
`0x08804000`. -/
theorem sentinel_names_live_block_witness :
    ∃ b, (IRJit.mk builtCache ()).blocks_.GetBlock
        (Memory.ReadUnchecked_U32 builtMem 0x08804000 &&& 0xFFFFFF) = some b ∧
      b.origAddr_ = 0x08804000 ∧ b.origAddr_ ≠ 0 :=
  sentinel_names_live_block plainFrontend 1 ⟨builtCache, ()⟩ builtMem
    (DispatchReach.compile 0 ⟨⟨[], fun _ => none⟩, ()⟩ (fun _ => 0x27BDFFF0) 0x08804000 1 _ _
      (DispatchReach.init () (fun _ => 0x27BDFFF0)
        (fun _ => (by decide : (0x27BDFFF0 : Nat) &&& 0xFF000000 ≠ MIPS_EMUHACK_OPCODE)))
      (by decide) (by decide)
      rfl)
    (by norm_num) 0x08804000 (by decide)

/-! ## The dispatcher (C11, C18) -/

theorem runInner_coreState {σ ω : Type} (env : Collaborators σ ω) (fuel : Nat)
    (s s2 : DispatchState σ ω) (h : IRJit.runInner env fuel s = some s2) :
    s2.coreState = s.coreState := by
  induction fuel generalizing s with
  | zero =>
    simp only [IRJit.runInner] at h
    split at h
    · cases h
    · cases h
      rfl
  | succ fuel ih =>
    simp only [IRJit.runInner] at h
    split at h
    · cases hd : IRJit.dispatchOnce env fuel s with
      | none => simp [hd] at h
      | some s1 =>
        simp only [hd] at h
        rw [ih s1 h]
        unfold IRJit.dispatchOnce at hd
        simp only at hd
        split at hd
        · split at hd
          · cases hd
          · cases hd
            rfl
        · split at hd
          · cases hd
          · cases hd
            rfl
    · cases h
      rfl

/-- One inner iteration at a word without the marker, with no rounding violation reported:
`Compile` appends one block at `pc` and patches the word there. -/
theorem dispatchOnce_compile {σ ω : Type} (env : Collaborators σ ω) (fuel : Nat)
    (s : DispatchState σ ω)
    (hw : Memory.ReadUnchecked_U32 s.mem s.pc &&& 0xFF000000 ≠ MIPS_EMUHACK_OPCODE)
    (hr : (env.frontend.CheckRounding (env.frontend.DoJit s.jit.frontend_ s.mem s.pc).2
      s.pc).1 = false) :
    IRJit.dispatchOnce env (fuel + 1) s =
      some { s with
        jit :=
          { blocks_ :=
              { blocks_ := s.jit.blocks_.blocks_ ++
                  [⟨(env.frontend.DoJit s.jit.frontend_ s.mem s.pc).1.1, s.pc,
                    (env.frontend.DoJit s.jit.frontend_ s.mem s.pc).1.2, s.mem s.pc⟩],
                byPage_ := pushPages s.jit.blocks_.byPage_ s.jit.blocks_.blocks_.length
                  (pagesFromTo (IRBlockCache.AddressToPage s.pc)
                    (IRBlockCache.AddressToPage
                      ((s.pc + (env.frontend.DoJit s.jit.frontend_ s.mem s.pc).1.2)
                        % 2 ^ 32))) },
            frontend_ := (env.frontend.CheckRounding
              (env.frontend.DoJit s.jit.frontend_ s.mem s.pc).2 s.pc).2 },
        mem := Memory.Write_Opcode_JIT s.mem s.pc (emuhack s.jit.blocks_.blocks_.length),
        events := s.events ++ [DispatchEvent.readWord s.pc, DispatchEvent.compile s.pc] } := by
  unfold IRJit.dispatchOnce
  simp only [if_neg hw, IRJit.Compile, compilePass_eq, hr, Bool.false_eq_true, if_false]

/-- With `2^24` blocks in the cache, two inner iterations in a row compile: the word written by
the first one is `0x69000000`, which the second one does not take for a sentinel. -/
theorem dispatchOnce_compile_twice {σ ω : Type} (env : Collaborators σ ω)
    (s : DispatchState σ ω) (hlen : s.jit.blocks_.blocks_.length = 2 ^ 24)
    (hw : Memory.ReadUnchecked_U32 s.mem s.pc &&& 0xFF000000 ≠ MIPS_EMUHACK_OPCODE)
    (hnr : ∀ f a, (env.frontend.CheckRounding f a).1 = false) :
    ∃ s1 s2, IRJit.dispatchOnce env 1 s = some s1 ∧
      IRJit.dispatchOnce env 1 s1 = some s2 ∧
      s1.jit.blocks_.blocks_.length = 2 ^ 24 + 1 ∧
      Memory.ReadUnchecked_U32 s1.mem s1.pc = 0x69000000 ∧
      s2.jit.blocks_.blocks_.length = 2 ^ 24 + 2 ∧
      s2.events = s.events ++ [DispatchEvent.readWord s.pc, DispatchEvent.compile s.pc,
        DispatchEvent.readWord s.pc, DispatchEvent.compile s.pc] := by
  have he : emuhack (2 ^ 24) = 0x69000000 := by
    have h24 : (2 : Nat) ^ 24 = 16777216 := by norm_num
    rw [h24]
    decide
  obtain ⟨s1, h1, hm, hp, hb, hev⟩ : ∃ s1, IRJit.dispatchOnce env (0 + 1) s = some s1 ∧
      s1.mem = Memory.Write_Opcode_JIT s.mem s.pc (emuhack s.jit.blocks_.blocks_.length) ∧
      s1.pc = s.pc ∧
      s1.jit.blocks_.blocks_.length = s.jit.blocks_.blocks_.length + 1 ∧
      s1.events = s.events ++ [DispatchEvent.readWord s.pc, DispatchEvent.compile s.pc] :=
    ⟨_, dispatchOnce_compile env 0 s hw (hnr _ _), rfl, rfl, by simp, rfl⟩
  have hr1 : Memory.ReadUnchecked_U32 s1.mem s1.pc = 0x69000000 := by
    rw [hm, hp]
    simp only [Memory.ReadUnchecked_U32, write_same, hlen, he]
  have hw1 : Memory.ReadUnchecked_U32 s1.mem s1.pc &&& 0xFF000000 ≠ MIPS_EMUHACK_OPCODE := by
    rw [hr1]
    decide
  obtain ⟨s2, h2, hb2, hev2⟩ : ∃ s2, IRJit.dispatchOnce env (0 + 1) s1 = some s2 ∧
      s2.jit.blocks_.blocks_.length = s1.jit.blocks_.blocks_.length + 1 ∧
      s2.events = s1.events ++ [DispatchEvent.readWord s1.pc, DispatchEvent.compile s1.pc] :=
    ⟨_, dispatchOnce_compile env 0 s1 hw1 (hnr _ _), by simp, rfl⟩
  refine ⟨s1, s2, h1, h2, by omega, hr1, by omega, ?_⟩
  rw [hev2, hev, hp]
  simp

/-- C11, as stated, fails for a cache that already holds `2^24` blocks: the new block gets the
number `2^24`, the word `MIPS_EMUHACK_OPCODE | 2^24` written at the program counter is
`0x69000000`, whose top byte is not the marker, and the next inner iteration compiles again
instead of interpreting: it adds a second block. -/
theorem dispatch_recompiles_when_number_overflows :
    0 ≤ fullCacheState.downcount ∧
      Memory.ReadUnchecked_U32 fullCacheState.mem fullCacheState.pc &&& 0xFF000000
        ≠ MIPS_EMUHACK_OPCODE ∧
      fullCacheState.jit.blocks_.blocks_.length = 2 ^ 24 ∧
      ∃ s1 s2, IRJit.dispatchOnce idleCollaborators 1 fullCacheState = some s1 ∧
        IRJit.dispatchOnce idleCollaborators 1 s1 = some s2 ∧
        s1.jit.blocks_.blocks_.length = 2 ^ 24 + 1 ∧
        Memory.ReadUnchecked_U32 s1.mem s1.pc = 0x69000000 ∧
        s2.jit.blocks_.blocks_.length = 2 ^ 24 + 2 ∧
        s2.events = fullCacheState.events ++
          [DispatchEvent.readWord fullCacheState.pc, DispatchEvent.compile fullCacheState.pc,
            DispatchEvent.readWord fullCacheState.pc,
            DispatchEvent.compile fullCacheState.pc] :=
  ⟨by decide, by decide, List.length_replicate _ _,
    dispatchOnce_compile_twice idleCollaborators fullCacheState (List.length_replicate _ _)
      (by decide) (fun _ _ => rfl)⟩

/-- C11 (amended): for every state with non-negative cycle budget whose cache holds fewer than
`2^24` blocks and whose guest word at the program counter `P` does not have the marker in its
top byte, and a frontend that reports no rounding violation, one inner iteration of
`RunLoopUntil` adds exactly one block, which starts at `P` and holds what the frontend
returned; it leaves the program counter at `P`, the cycle budget as it is, and makes the guest
word at `P` that block's sentinel. The next inner iteration adds no block and sets the program
counter to the interpreter's result on that block's instruction sequence. -/
theorem dispatch_compile_then_interpret {σ ω : Type} (env : Collaborators σ ω)
    (fuel fuel2 : Nat) (s : DispatchState σ ω) (hd : 0 ≤ s.downcount)
    (hcap : s.jit.blocks_.blocks_.length < 2 ^ 24)
    (hw : Memory.ReadUnchecked_U32 s.mem s.pc &&& 0xFF000000 ≠ MIPS_EMUHACK_OPCODE)
    (hr : (env.frontend.CheckRounding (env.frontend.DoJit s.jit.frontend_ s.mem s.pc).2
      s.pc).1 = false) :
    ∃ s1, IRJit.dispatchOnce env (fuel + 1) s = some s1 ∧
      s1.jit.blocks_.blocks_ = s.jit.blocks_.blocks_ ++
        [⟨(env.frontend.DoJit s.jit.frontend_ s.mem s.pc).1.1, s.pc,
          (env.frontend.DoJit s.jit.frontend_ s.mem s.pc).1.2,
          Memory.ReadUnchecked_U32 s.mem s.pc⟩] ∧
      s1.pc = s.pc ∧ 0 ≤ s1.downcount ∧
      Memory.ReadUnchecked_U32 s1.mem s.pc
        = MIPS_EMUHACK_OPCODE ||| s.jit.blocks_.blocks_.length ∧
      ∃ s2, IRJit.dispatchOnce env fuel2 s1 = some s2 ∧
        s2.jit.blocks_.blocks_ = s1.jit.blocks_.blocks_ ∧
        s2.pc = (env.IRInterpret s1.world s1.mem s1.downcount
          (env.frontend.DoJit s.jit.frontend_ s.mem s.pc).1.1).1 ∧
        s2.events = s.events ++ [DispatchEvent.readWord s.pc, DispatchEvent.compile s.pc,
          DispatchEvent.readWord s.pc, DispatchEvent.interpret s.jit.blocks_.blocks_.length] := by
  refine ⟨_, dispatchOnce_compile env fuel s hw hr, rfl, rfl, hd, ?_, ?_⟩
  · simp only [Memory.ReadUnchecked_U32, write_same]
    exact emuhack_eq_of_lt hcap
  · unfold IRJit.dispatchOnce
    simp only [Memory.ReadUnchecked_U32, write_same, emuhack_top hcap, emuhack_low hcap,
      if_true, IRBlockCache.GetBlock, List.getElem?_concat_length]
    refine ⟨_, rfl, rfl, rfl, ?_⟩
    simp

/-- Witness of C11: the empty cache, the program counter at `0x08804000` over the word
`0x27BDFFF0`. -/
theorem dispatch_compile_then_interpret_witness :
    ∃ s1, IRJit.dispatchOnce idleCollaborators (0 + 1)
        ⟨⟨⟨[], fun _ => none⟩, ()⟩, fun _ => 0x27BDFFF0, 0x08804000, 0, 0, (), []⟩ = some s1 ∧
      s1.jit.blocks_.blocks_ = [] ++
        [⟨(idleCollaborators.frontend.DoJit () (fun _ => 0x27BDFFF0) 0x08804000).1.1, 0x08804000,
          (idleCollaborators.frontend.DoJit () (fun _ => 0x27BDFFF0) 0x08804000).1.2,
          Memory.ReadUnchecked_U32 (fun _ => 0x27BDFFF0) 0x08804000⟩] ∧
      s1.pc = 0x08804000 ∧ 0 ≤ s1.downcount ∧
      Memory.ReadUnchecked_U32 s1.mem 0x08804000
        = MIPS_EMUHACK_OPCODE ||| ([] : List IRBlock).length ∧
      ∃ s2, IRJit.dispatchOnce idleCollaborators 0 s1 = some s2 ∧
        s2.jit.blocks_.blocks_ = s1.jit.blocks_.blocks_ ∧
        s2.pc = (idleCollaborators.IRInterpret s1.world s1.mem s1.downcount
          (idleCollaborators.frontend.DoJit () (fun _ => 0x27BDFFF0) 0x08804000).1.1).1 ∧
        s2.events = [] ++ [DispatchEvent.readWord 0x08804000, DispatchEvent.compile 0x08804000,
          DispatchEvent.readWord 0x08804000,
          DispatchEvent.interpret ([] : List IRBlock).length] :=
  dispatch_compile_then_interpret idleCollaborators 0 0
    ⟨⟨⟨[], fun _ => none⟩, ()⟩, fun _ => 0x27BDFFF0, 0x08804000, 0, 0, (), []⟩
    (by decide) (by decide) (by decide) rfl

/-! ## Clear as a full reset (C8) -/

end MIPSComp
